import Mathlib

/-!
Verification of the Sudoku generation/solving engine
(`src/sudoku/infrastructure/solvers/backtracking_solver.py` and
`src/sudoku/infrastructure/generators/backtracking_generator.py`).

Modelling conventions:
* A board is a `List (List Nat)`; Python's `board[r][c]` is modelled by
  `cell`, which totalises the out-of-range case with `0` (Python would raise
  `IndexError`; every theorem below restricts attention to well-formed
  `N × N` boards, where the two semantics agree).
* Python's in-place mutation is modelled by state passing; the recursive
  search functions take an explicit fuel argument.  The top-level entry
  points supply `countEmpty g n + 1` fuel, which is exactly the recursion
  depth the Python functions reach on a well-formed board (each recursive
  call fills one empty cell).
* `random.shuffle`, `random.shuffle` of positions and `random.randint` are
  modelled by oracle parameters (`cand`, `pos`, `rnd`); theorems quantify
  over all oracle outcomes satisfying the library's contract.
* The float removal rates `0.30 … 0.65` are modelled by the exact rationals
  `30/100 … 65/100`, and Python's `int(total * rate)` by floor division
  `total * k / 100` on `Nat`.
-/

namespace Sudoku

abbrev Grid := List (List Nat)

/-- Read of `board[r][c]`, totalised with `0` out of range. -/
def cell (g : Grid) (r c : Nat) : Nat := (g.getD r []).getD c 0

/-- Write of `board[r][c] = v` (a no-op out of range, where Python raises). -/
def setCell (g : Grid) (r c v : Nat) : Grid :=
  g.set r ((g.getD r []).set c v)

/-- `[[0 for _ in range(n)] for _ in range(n)]`. -/
def emptyGrid (n : Nat) : Grid :=
  (List.range n).map (fun _ => (List.range n).map (fun _ => 0))

/-- `_find_empty_cell`: first `(r, c)` in row-major order with `board[r][c] == 0`. -/
def findEmptyCell (g : Grid) (n : Nat) : Option (Nat × Nat) :=
  (List.range n).findSome? (fun r =>
    (List.range n).findSome? (fun c =>
      if cell g r c = 0 then some (r, c) else none))

/-- `_is_valid_placement`: the row membership test, the column membership
test and the box scan, in the source's order. -/
def isValidPlacement (g : Grid) (row col num bw bh : Nat) : Bool :=
  let n := bw * bh
  if decide (num ∈ g.getD row []) then false
  else if decide (num ∈ (List.range n).map (fun r => cell g r col)) then false
  else
    let bsr := row / bh * bh
    let bsc := col / bw * bw
    (List.range bh).all (fun i =>
      (List.range bw).all (fun j => cell g (bsr + i) (bsc + j) != num))

/-- The values collected by the box loop of `_is_initial_board_valid`
(rows of the box outermost, as in the source). -/
def boxCells (g : Grid) (br bc bw bh : Nat) : List Nat :=
  (List.range bh).flatMap (fun i =>
    (List.range bw).map (fun j => cell g (br + i) (bc + j)))

/-- Python's `len(non_zero) != len(set(non_zero))` duplicate test, i.e. the
non-zero entries of `l` are pairwise distinct. -/
def nonZeroNodup (l : List Nat) : Bool :=
  decide (l.filter (fun x => x != 0)).Nodup

/-- `_is_initial_board_valid`: row scan, column scan, box scan.  The box
corners range over `range(0, n, box_height) × range(0, n, box_width)`. -/
def isInitialBoardValid (g : Grid) (bw bh : Nat) : Bool :=
  let n := bw * bh
  g.all (fun row => nonZeroNodup row) &&
  ((List.range n).all (fun c =>
    nonZeroNodup ((List.range n).map (fun r => cell g r c)))) &&
  ((List.range' 0 bw bh).all (fun br =>
    (List.range' 0 bh bw).all (fun bc =>
      nonZeroNodup (boxCells g br bc bw bh))))

/-- Number of empty cells in the `n × n` scan region (the measure that
strictly decreases along the Python recursion; used as fuel). -/
def countEmpty (g : Grid) (n : Nat) : Nat :=
  ((List.range n).map (fun r =>
    ((List.range n).filter (fun c => cell g r c == 0)).length)).sum

/-- The common recursive search of `_solve_recursive` (candidates
`range(1, n+1)`) and `_fill_board` (candidates shuffled); `cand g` is the
candidate list used in the call frame whose board state is `g`.  On
success the fully filled board is returned; `none` models `False` (and by
the backtracking discipline the Python board is then restored to `g`). -/
def searchGo (bw bh : Nat) (cand : Grid → List Nat) : Nat → Grid → Option Grid
  | 0, _ => none
  | fuel + 1, g =>
    match findEmptyCell g (bw * bh) with
    | none => some g
    | some (r, c) =>
      (cand g).findSome? (fun v =>
        if isValidPlacement g r c v bw bh then
          searchGo bw bh cand fuel (setCell g r c v)
        else none)

/-- `BacktrackingSolver.solve`: reject a board failing the initial validity
scan, otherwise run the backtracking search on a copy with ascending
candidate order. -/
def solve (g : Grid) (bw bh : Nat) : Option Grid :=
  if isInitialBoardValid g bw bh then
    searchGo bw bh (fun _ => List.range' 1 (bw * bh)) (countEmpty g (bw * bh) + 1) g
  else none

/-- The `for num in range(1, board_size+1)` loop of `_count_solutions`,
with the running count and the early exit once `count >= max_count`;
`f` is the recursive call at one unit less fuel. -/
def countLoop (bw bh m : Nat) (f : Grid → Nat) (g : Grid) (r c : Nat) :
    List Nat → Nat → Nat
  | [], acc => acc
  | v :: vs, acc =>
    if isValidPlacement g r c v bw bh then
      let acc' := acc + f (setCell g r c v)
      if m ≤ acc' then acc' else countLoop bw bh m f g r c vs acc'
    else countLoop bw bh m f g r c vs acc

/-- `_count_solutions` with cap `m`. -/
def countGo (bw bh m : Nat) : Nat → Grid → Nat
  | 0, _ => 0
  | fuel + 1, g =>
    match findEmptyCell g (bw * bh) with
    | none => 1
    | some (r, c) =>
      countLoop bw bh m (fun g' => countGo bw bh m fuel g') g r c
        (List.range' 1 (bw * bh)) 0

/-- `BacktrackingSolver.has_unique_solution`: count on a copy with
`max_count = 2` and compare with `1`. -/
def hasUniqueSolution (g : Grid) (bw bh : Nat) : Bool :=
  countGo bw bh 2 (countEmpty g (bw * bh) + 1) g == 1

/-- `BacktrackingGenerator._generate_complete_board`: fill an all-zero
board; the board object is returned whether or not `_fill_board`
succeeded (on failure backtracking has restored it to all zeros). -/
def generateCompleteBoard (bw bh : Nat) (cand : Grid → List Nat) : Grid :=
  let n := bw * bh
  let board := emptyGrid n
  match searchGo bw bh cand (countEmpty board n + 1) board with
  | some b => b
  | none => board

/-- The `_difficulty_removal_rates` table, rates as exact hundredths. -/
def difficultyRemovalRates (d : String) : Option ((Nat × Nat) × (Nat × Nat)) :=
  if d = "EASY" then some ((30, 100), (40, 100))
  else if d = "MEDIUM" then some ((45, 100), (55, 100))
  else if d = "HARD" then some ((60, 100), (65, 100))
  else none

/-- The removal loop of `_remove_cells`: walk the shuffled positions,
stopping once `removed >= cells_to_remove`. -/
def removeLoop (k : Nat) : List (Nat × Nat) → Nat → Grid → Grid
  | [], _, puzzle => puzzle
  | p :: rest, removed, puzzle =>
    if k ≤ removed then puzzle
    else removeLoop k rest (removed + 1) (setCell puzzle p.1 p.2 0)

/-- `_remove_cells`: copy the board, draw `cells_to_remove` from
`randint(int(total*min_rate), int(total*max_rate))` (oracle `rnd`), zero
out that many cells of the (oracle-)shuffled position list `pos`. -/
def removeCells (board : Grid) (bw bh : Nat) (difficulty : String)
    (pos : List (Nat × Nat)) (rnd : Nat → Nat → Nat) : Grid :=
  let n := bw * bh
  let puzzle := board.map (fun row => row)
  match difficultyRemovalRates difficulty with
  | none => puzzle
  | some ((a, b), (c, d)) =>
    let total := n * n
    let k := rnd (total * a / b) (total * c / d)
    removeLoop k pos 0 puzzle

/-- Python's `str.upper()`, modelled per character (`Char.toUpper` agrees
with Python on the ASCII difficulty strings at issue). -/
def strUpper (s : String) : String := String.mk (s.data.map Char.toUpper)

/-- `BacktrackingGenerator.generate`: reject unrecognised difficulties
(after upper-casing), otherwise build a complete board and remove cells.
`Except.error` models the raised `ValueError`. -/
def generate (bw bh : Nat) (difficulty : String) (cand : Grid → List Nat)
    (pos : List (Nat × Nat)) (rnd : Nat → Nat → Nat) : Except String Grid :=
  if (difficultyRemovalRates (strUpper difficulty)).isNone then
    Except.error ("Invalid difficulty: must be one of EASY, MEDIUM, HARD")
  else
    let completeBoard := generateCompleteBoard bw bh cand
    Except.ok (removeCells completeBoard bw bh (strUpper difficulty) pos rnd)

/-! ### Specification-side vocabulary -/

/-- The board is an `n × n` matrix. -/
def WellFormed (g : Grid) (n : Nat) : Prop :=
  g.length = n ∧ ∀ row ∈ g, row.length = n

/-- Row `r` of the board as read through `cell`. -/
def rowList (g : Grid) (n r : Nat) : List Nat :=
  (List.range n).map (fun c => cell g r c)

/-- Column `c` of the board as read through `cell`. -/
def colList (g : Grid) (n c : Nat) : List Nat :=
  (List.range n).map (fun r => cell g r c)

/-- The box with box-row index `i < bw` and box-column index `j < bh`
(its top-left corner is `(i * bh, j * bw)`). -/
def boxList (g : Grid) (bw bh i j : Nat) : List Nat :=
  boxCells g (i * bh) (j * bw) bw bh

/-- A fully solved valid board: `n × n`, and every row, column and box is
a permutation of `1..n`. -/
def IsSolutionGrid (g : Grid) (bw bh : Nat) : Prop :=
  WellFormed g (bw * bh) ∧
  (∀ r < bw * bh, (rowList g (bw * bh) r).Perm (List.range' 1 (bw * bh))) ∧
  (∀ c < bw * bh, (colList g (bw * bh) c).Perm (List.range' 1 (bw * bh))) ∧
  (∀ i < bw, ∀ j < bh, (boxList g bw bh i j).Perm (List.range' 1 (bw * bh)))

/-- `sol` solves the puzzle `g`: it is a valid solution grid that agrees
with `g` on all the non-zero (given) cells. -/
def IsCompletion (g sol : Grid) (bw bh : Nat) : Prop :=
  IsSolutionGrid sol bw bh ∧
  ∀ r < bw * bh, ∀ c < bw * bh, cell g r c ≠ 0 → cell sol r c = cell g r c

/-- Some row, column or box of `g` contains a duplicate non-zero value. -/
def HasDuplicate (g : Grid) (bw bh : Nat) : Prop :=
  (∃ r < bw * bh, ¬ ((rowList g (bw * bh) r).filter (fun x => x != 0)).Nodup) ∨
  (∃ c < bw * bh, ¬ ((colList g (bw * bh) c).filter (fun x => x != 0)).Nodup) ∨
  (∃ i < bw, ∃ j < bh, ¬ ((boxList g bw bh i j).filter (fun x => x != 0)).Nodup)

/-! ### Basic lemmas about `cell` and `setCell` -/

lemma getD_set_ne {α : Type} (l : List α) (i j : Nat) (a d : α) (h : i ≠ j) :
    (l.set i a).getD j d = l.getD j d := by
  simp only [List.getD_eq_getElem?_getD, List.getElem?_set, if_neg h]

lemma getD_set_self {α : Type} (l : List α) (i : Nat) (a d : α) (h : i < l.length) :
    (l.set i a).getD i d = a := by
  simp [List.getD_eq_getElem?_getD, List.getElem?_set, h]

lemma cell_setCell_ne (g : Grid) (r c v r' c' : Nat) (h : r' ≠ r ∨ c' ≠ c) :
    cell (setCell g r c v) r' c' = cell g r' c' := by
  rcases h with h | h
  · unfold cell setCell
    rw [getD_set_ne _ _ _ _ _ (fun hh => h hh.symm)]
  · by_cases hr : r' = r
    · subst hr
      unfold cell setCell
      by_cases hl : r' < g.length
      · rw [getD_set_self _ _ _ _ hl, getD_set_ne _ _ _ _ _ (fun hh => h hh.symm)]
      · rw [List.set_eq_of_length_le (Nat.le_of_not_lt hl)]
    · unfold cell setCell
      rw [getD_set_ne _ _ _ _ _ (fun hh => hr hh.symm)]

lemma cell_setCell_self (g : Grid) (r c v : Nat) (hr : r < g.length)
    (hc : c < (g.getD r []).length) :
    cell (setCell g r c v) r c = v := by
  unfold cell setCell
  rw [getD_set_self _ _ _ _ hr, getD_set_self _ _ _ _ hc]

lemma wellFormed_rowLen {g : Grid} {n : Nat} (hwf : WellFormed g n) {r : Nat}
    (hr : r < n) : (g.getD r []).length = n := by
  have hlen : r < g.length := hwf.1 ▸ hr
  rw [List.getD_eq_getElem?_getD, List.getElem?_eq_getElem hlen, Option.getD_some]
  exact hwf.2 _ (List.getElem_mem hlen)

lemma wellFormed_setCell {g : Grid} {n : Nat} (hwf : WellFormed g n)
    (r c v : Nat) : WellFormed (setCell g r c v) n := by
  by_cases hr : r < n
  · constructor
    · simp [setCell, hwf.1]
    · intro row hrow
      rcases List.mem_or_eq_of_mem_set hrow with h | h
      · exact hwf.2 _ h
      · subst h
        rw [List.length_set]
        exact wellFormed_rowLen hwf hr
  · have hle : g.length ≤ r := by
      have := hwf.1; omega
    unfold setCell
    rw [List.set_eq_of_length_le hle]
    exact hwf

lemma cell_lt_of_wellFormed {g : Grid} {n : Nat} (hwf : WellFormed g n)
    {r c : Nat} (hr : r < n) (hc : c < n) :
    r < g.length ∧ c < (g.getD r []).length := by
  exact ⟨hwf.1 ▸ hr, (wellFormed_rowLen hwf hr) ▸ hc⟩

lemma cell_setCell_self_wf {g : Grid} {n : Nat} (hwf : WellFormed g n)
    {r c : Nat} (v : Nat) (hr : r < n) (hc : c < n) :
    cell (setCell g r c v) r c = v := by
  obtain ⟨h1, h2⟩ := cell_lt_of_wellFormed hwf hr hc
  exact cell_setCell_self g r c v h1 h2

/-- For a well-formed board, the actual stored row equals the row read
through `cell`. -/
lemma getD_row_eq_rowList {g : Grid} {n : Nat} (hwf : WellFormed g n) {r : Nat}
    (hr : r < n) : g.getD r [] = rowList g n r := by
  apply List.ext_getElem
  · rw [wellFormed_rowLen hwf hr]
    simp [rowList]
  · intro c h1 h2
    simp only [rowList, List.getElem_map, List.getElem_range]
    unfold cell
    rw [List.getD_eq_getElem?_getD (g.getD r []) c 0, List.getElem?_eq_getElem h1,
      Option.getD_some]

lemma rowList_getElem {g : Grid} {n r c : Nat} (hc : c < n) :
    (rowList g n r).getD c 0 = cell g r c := by
  have hlen : c < (rowList g n r).length := by simp [rowList, hc]
  rw [List.getD_eq_getElem?_getD, List.getElem?_eq_getElem hlen, Option.getD_some]
  simp only [rowList, List.getElem_map, List.getElem_range]

/-! ### `findEmptyCell` -/

lemma findEmptyCell_eq_some {g : Grid} {n r c : Nat}
    (h : findEmptyCell g n = some (r, c)) :
    r < n ∧ c < n ∧ cell g r c = 0 := by
  unfold findEmptyCell at h
  obtain ⟨a, ha, hfa⟩ := List.exists_of_findSome?_eq_some h
  obtain ⟨b, hb, hfb⟩ := List.exists_of_findSome?_eq_some hfa
  by_cases hz : cell g a b = 0
  · simp only [if_pos hz, Option.some.injEq, Prod.mk.injEq] at hfb
    obtain ⟨h1, h2⟩ := hfb
    subst h1; subst h2
    exact ⟨List.mem_range.mp ha, List.mem_range.mp hb, hz⟩
  · simp [if_neg hz] at hfb

lemma findEmptyCell_eq_none_iff {g : Grid} {n : Nat} :
    findEmptyCell g n = none ↔ ∀ r < n, ∀ c < n, cell g r c ≠ 0 := by
  unfold findEmptyCell
  rw [List.findSome?_eq_none_iff]
  constructor
  · intro h r hr c hc hz
    have := h r (List.mem_range.mpr hr)
    rw [List.findSome?_eq_none_iff] at this
    have := this c (List.mem_range.mpr hc)
    simp [if_pos hz] at this
  · intro h r hr
    rw [List.findSome?_eq_none_iff]
    intro c hc
    rw [if_neg (h r (List.mem_range.mp hr) c (List.mem_range.mp hc))]

/-! ### The `countEmpty` measure decreases when an empty cell is filled -/

lemma filter_length_le_of_imp {l : List Nat} {p p' : Nat → Bool}
    (h : ∀ x ∈ l, p' x = true → p x = true) :
    (l.filter p').length ≤ (l.filter p).length := by
  induction l with
  | nil => simp
  | cons a t ih =>
    have iht := ih (fun x hx => h x (List.mem_cons_of_mem _ hx))
    by_cases hpa : p' a = true
    · have hqa := h a (List.mem_cons_self a t) hpa
      rw [List.filter_cons, List.filter_cons, if_pos hpa, if_pos hqa]
      simpa using iht
    · rw [List.filter_cons, if_neg hpa]
      by_cases hqa : p a = true
      · rw [List.filter_cons, if_pos hqa]
        simp only [List.length_cons]
        omega
      · rw [List.filter_cons, if_neg hqa]
        exact iht

lemma filter_length_lt_of_flip {l : List Nat} {p p' : Nat → Bool} {c : Nat}
    (hnd : l.Nodup) (hc : c ∈ l) (hp : p c = true) (hp' : p' c = false)
    (hoth : ∀ x ∈ l, x ≠ c → p' x = p x) :
    (l.filter p').length < (l.filter p).length := by
  induction l with
  | nil => cases hc
  | cons a t ih =>
    have hndt : t.Nodup := hnd.of_cons
    by_cases hac : a = c
    · subst hac
      have hnotmem : a ∉ t := (List.nodup_cons.mp hnd).1
      have heq : t.filter p' = t.filter p := by
        apply List.filter_congr
        intro x hx
        exact hoth x (List.mem_cons_of_mem _ hx) (fun he => hnotmem (he ▸ hx))
      rw [List.filter_cons, List.filter_cons, if_pos hp, if_neg (by simp [hp']), heq]
      simp only [List.length_cons]
      omega
    · have hct : c ∈ t := by
        rcases List.mem_cons.mp hc with h | h
        · exact absurd h.symm hac
        · exact h
      have hlt := ih hndt hct (fun x hx hne => hoth x (List.mem_cons_of_mem _ hx) hne)
      have hpa : p' a = p a := hoth a (List.mem_cons_self a t) (fun h => hac h)
      by_cases hcase : p a = true
      · rw [List.filter_cons, List.filter_cons, if_pos hcase, if_pos (hpa.trans hcase)]
        simp only [List.length_cons]
        omega
      · rw [List.filter_cons, List.filter_cons, if_neg hcase,
          if_neg (fun hh => hcase (hpa ▸ hh))]
        exact hlt

lemma map_sum_lt_of_pointwise {f f' : Nat → Nat} :
    ∀ {l : List Nat} {r : Nat}, r ∈ l → f' r < f r → (∀ x ∈ l, f' x ≤ f x) →
      (l.map f').sum < (l.map f).sum := by
  intro l
  induction l with
  | nil =>
    intro r hr _ _
    cases hr
  | cons a t ih =>
    intro r hr hlt hle
    rcases List.mem_cons.mp hr with h | h
    · subst h
      have : (t.map f').sum ≤ (t.map f).sum :=
        List.sum_le_sum (fun i hi => hle i (List.mem_cons_of_mem _ hi))
      simp only [List.map_cons, List.sum_cons]
      omega
    · have h1 := ih h hlt (fun x hx => hle x (List.mem_cons_of_mem _ hx))
      have h2 : f' a ≤ f a := hle a (List.mem_cons_self a t)
      simp only [List.map_cons, List.sum_cons]
      omega

lemma countEmpty_setCell_lt {g : Grid} {n : Nat} (hwf : WellFormed g n)
    {r c v : Nat} (hr : r < n) (hc : c < n) (hz : cell g r c = 0) (hv : v ≠ 0) :
    countEmpty (setCell g r c v) n < countEmpty g n := by
  unfold countEmpty
  apply map_sum_lt_of_pointwise (List.mem_range.mpr hr)
  · apply filter_length_lt_of_flip (List.nodup_range n) (List.mem_range.mpr hc)
    · simp [hz]
    · simp [cell_setCell_self_wf hwf v hr hc, hv]
    · intro c' _ hne
      simp [cell_setCell_ne g r c v r c' (Or.inr hne)]
  · intro r' _
    by_cases hrr : r' = r
    · apply filter_length_le_of_imp
      intro c' _ hp'
      by_cases hcc : c' = c
      · rw [hrr, hcc, cell_setCell_self_wf hwf v hr hc] at hp'
        simp at hp'
        exact absurd hp' hv
      · rwa [cell_setCell_ne g r c v r' c' (Or.inr hcc)] at hp'
    · have : ∀ c', cell (setCell g r c v) r' c' = cell g r' c' :=
        fun c' => cell_setCell_ne g r c v r' c' (Or.inl hrr)
      simp [this]

/-! ### Characterisations of the scan lists -/

lemma getD_of_lt {α : Type} (l : List α) (c : Nat) (d : α) (h : c < l.length) :
    l.getD c d = l[c] := by
  rw [List.getD_eq_getElem?_getD, List.getElem?_eq_getElem h, Option.getD_some]

lemma getD_map_range {m k d : Nat} (f : Nat → Nat) (hk : k < m) :
    ((List.range m).map f).getD k d = f k := by
  have hlen : k < ((List.range m).map f).length := by simp [hk]
  rw [getD_of_lt _ _ _ hlen, List.getElem_map, List.getElem_range]

lemma map_range_eq_set {m k v : Nat} {f f' : Nat → Nat} (hk : k < m) (hfk : f' k = v)
    (hoth : ∀ t, t ≠ k → f' t = f t) :
    (List.range m).map f' = ((List.range m).map f).set k v := by
  apply List.ext_getElem
  · simp
  · intro i h1 h2
    have hi : i < m := by simpa using h1
    have hset : i < ((List.range m).map f).length := by simp [hi]
    simp only [List.getElem_map, List.getElem_range, List.getElem_set]
    by_cases hik : k = i
    · rw [if_pos hik, ← hik, hfk]
    · rw [if_neg hik]
      exact hoth i (fun h => hik h.symm)

lemma boxCells_eq_map_range (g : Grid) (br bc bw bh : Nat) (hbw : 0 < bw) :
    boxCells g br bc bw bh =
      (List.range (bh * bw)).map (fun t => cell g (br + t / bw) (bc + t % bw)) := by
  induction bh with
  | zero => simp [boxCells]
  | succ m ih =>
    have hsec : (List.range bw).map (fun j => cell g (br + m) (bc + j)) =
        ((List.range bw).map (fun x => m * bw + x)).map
          (fun t => cell g (br + t / bw) (bc + t % bw)) := by
      rw [List.map_map]
      apply List.map_congr_left
      intro j hj
      have hjw : j < bw := List.mem_range.mp hj
      have hdiv : (m * bw + j) / bw = m := by
        rw [Nat.mul_comm m bw, Nat.mul_add_div hbw, Nat.div_eq_of_lt hjw, Nat.add_zero]
      have hmod : (m * bw + j) % bw = j := by
        rw [Nat.mul_comm m bw, Nat.mul_add_mod, Nat.mod_eq_of_lt hjw]
      simp [Function.comp, hdiv, hmod]
    calc boxCells g br bc bw (m + 1)
        = boxCells g br bc bw m
            ++ (List.range bw).map (fun j => cell g (br + m) (bc + j)) := by
          rw [boxCells, List.range_succ, List.flatMap_append, List.flatMap_cons,
            List.flatMap_nil, List.append_nil]
          rfl
      _ = (List.range ((m + 1) * bw)).map
            (fun t => cell g (br + t / bw) (bc + t % bw)) := by
          rw [ih, hsec, Nat.succ_mul, List.range_add, List.map_append]

lemma mem_boxCells {g : Grid} {br bc bw bh x : Nat} :
    x ∈ boxCells g br bc bw bh ↔ ∃ s < bh, ∃ t < bw, cell g (br + s) (bc + t) = x := by
  unfold boxCells
  simp [List.mem_flatMap, List.mem_map, List.mem_range]

lemma colList_setCell {g : Grid} {n : Nat} (hwf : WellFormed g n) {r c : Nat}
    (hr : r < n) (hc : c < n) (v : Nat) :
    colList (setCell g r c v) n c = (colList g n c).set r v := by
  unfold colList
  refine map_range_eq_set hr ?_ ?_
  · exact cell_setCell_self_wf hwf v hr hc
  · intro t ht
    exact cell_setCell_ne g r c v t c (Or.inl ht)

lemma colList_setCell_ne {g : Grid} {n : Nat} {r c c' : Nat} (v : Nat)
    (h : c' ≠ c) : colList (setCell g r c v) n c' = colList g n c' := by
  unfold colList
  apply List.map_congr_left
  intro t _
  exact cell_setCell_ne g r c v t c' (Or.inr h)

lemma div_lt_of_lt_mul {t bw bh : Nat} (hbw : 0 < bw) (ht : t < bh * bw) :
    t / bw < bh :=
  Nat.div_lt_of_lt_mul (Nat.mul_comm bh bw ▸ ht)

lemma boxCells_setCell {g : Grid} {bw bh : Nat} (hwf : WellFormed g (bw * bh))
    {r c : Nat} (hr : r < bw * bh) (hc : c < bw * bh) (hbw : 0 < bw) (hbh : 0 < bh)
    (v : Nat) :
    boxCells (setCell g r c v) (r / bh * bh) (c / bw * bw) bw bh =
      (boxCells g (r / bh * bh) (c / bw * bw) bw bh).set (r % bh * bw + c % bw) v := by
  rw [boxCells_eq_map_range _ _ _ _ _ hbw, boxCells_eq_map_range _ _ _ _ _ hbw]
  have hmodr : r % bh < bh := Nat.mod_lt _ hbh
  have hmodc : c % bw < bw := Nat.mod_lt _ hbw
  have hdivk : (r % bh * bw + c % bw) / bw = r % bh := by
    rw [Nat.mul_comm (r % bh) bw, Nat.mul_add_div hbw, Nat.div_eq_of_lt hmodc,
      Nat.add_zero]
  have hmodk : (r % bh * bw + c % bw) % bw = c % bw := by
    rw [Nat.mul_comm (r % bh) bw, Nat.mul_add_mod, Nat.mod_eq_of_lt hmodc]
  have hrr : r / bh * bh + r % bh = r := by
    rw [Nat.mul_comm (r / bh) bh]
    exact Nat.div_add_mod r bh
  have hcc : c / bw * bw + c % bw = c := by
    rw [Nat.mul_comm (c / bw) bw]
    exact Nat.div_add_mod c bw
  apply map_range_eq_set
  · calc r % bh * bw + c % bw < r % bh * bw + bw := by omega
    _ = (r % bh + 1) * bw := by ring
    _ ≤ bh * bw := Nat.mul_le_mul_right _ (Nat.succ_le_of_lt hmodr)
  · rw [hdivk, hmodk, hrr, hcc]
    exact cell_setCell_self_wf hwf v hr hc
  · intro t ht
    apply cell_setCell_ne
    by_cases h1 : r / bh * bh + t / bw = r
    · right
      intro h2
      apply ht
      have e1 : t / bw = r % bh := by omega
      have e2 : t % bw = c % bw := by omega
      rw [← e1, ← e2]
      rw [Nat.mul_comm (t / bw) bw]
      exact (Nat.div_add_mod t bw).symm
    · exact Or.inl h1

lemma boxCells_setCell_ne {g : Grid} {r c v bw bh i j : Nat}
    (hbw : 0 < bw) (hbh : 0 < bh) (h : i ≠ r / bh ∨ j ≠ c / bw) :
    boxCells (setCell g r c v) (i * bh) (j * bw) bw bh =
      boxCells g (i * bh) (j * bw) bw bh := by
  rw [boxCells_eq_map_range _ _ _ _ _ hbw, boxCells_eq_map_range _ _ _ _ _ hbw]
  apply List.map_congr_left
  intro t ht
  apply cell_setCell_ne
  rcases h with h | h
  · left
    intro he
    apply h
    have hdb : t / bw < bh := div_lt_of_lt_mul hbw (List.mem_range.mp ht)
    have : (i * bh + t / bw) / bh = i := by
      rw [Nat.mul_comm i bh, Nat.mul_add_div hbh, Nat.div_eq_of_lt hdb, Nat.add_zero]
    rw [← he, this]
  · right
    intro he
    apply h
    have hmb : t % bw < bw := Nat.mod_lt _ hbw
    have : (j * bw + t % bw) / bw = j := by
      rw [Nat.mul_comm j bw, Nat.mul_add_div hbw, Nat.div_eq_of_lt hmb, Nat.add_zero]
    rw [← he, this]

/-! ### Filling an empty cell with a fresh value preserves duplicate-freeness -/

lemma filter_nodup_set {v : Nat} (hv : v ≠ 0) :
    ∀ {l : List Nat} {c : Nat}, l.getD c 1 = 0 → v ∉ l →
      (l.filter (fun x => x != 0)).Nodup →
      ((l.set c v).filter (fun x => x != 0)).Nodup := by
  intro l
  induction l with
  | nil =>
    intro c h0 _ _
    simp [List.getD_eq_getElem?_getD] at h0
  | cons a t ih =>
    intro c h0 hmem hnd
    cases c with
    | zero =>
      have ha : a = 0 := by simpa [List.getD] using h0
      subst ha
      rw [List.set_cons_zero, List.filter_cons, if_pos (by simp [hv])]
      rw [List.filter_cons] at hnd
      simp only [bne_self_eq_false, Bool.false_eq_true] at hnd
      rw [if_neg (by simp)] at hnd
      refine List.nodup_cons.mpr ⟨?_, hnd⟩
      intro hvf
      exact (fun h => hmem (List.mem_cons_of_mem _ h)) (List.mem_of_mem_filter hvf)
    | succ c' =>
      have h0' : t.getD c' 1 = 0 := by simpa [List.getD] using h0
      have hmem' : v ∉ t := fun h => hmem (List.mem_cons_of_mem _ h)
      rw [List.set_cons_succ, List.filter_cons]
      rw [List.filter_cons] at hnd
      by_cases ha : (a != 0) = true
      · rw [if_pos ha] at hnd ⊢
        obtain ⟨hnotin, hndt⟩ := List.nodup_cons.mp hnd
        refine List.nodup_cons.mpr ⟨?_, ih h0' hmem' hndt⟩
        intro hin
        have hin' := List.mem_of_mem_filter hin
        rcases List.mem_or_eq_of_mem_set hin' with h | h
        · exact hnotin (List.mem_filter.mpr ⟨h, ha⟩)
        · exact hmem (h ▸ List.mem_cons_self a t)
      · rw [if_neg ha] at hnd ⊢
        exact ih h0' hmem' hnd

/-! ### Unfolding the validity scan and the placement check -/

lemma isInitialBoardValid_iff {g : Grid} {bw bh : Nat} :
    isInitialBoardValid g bw bh = true ↔
      (∀ row ∈ g, (row.filter (fun x => x != 0)).Nodup) ∧
      (∀ c < bw * bh, ((colList g (bw * bh) c).filter (fun x => x != 0)).Nodup) ∧
      (∀ i < bw, ∀ j < bh,
        ((boxCells g (i * bh) (j * bw) bw bh).filter (fun x => x != 0)).Nodup) := by
  unfold isInitialBoardValid nonZeroNodup colList
  simp only [Bool.and_eq_true, List.all_eq_true, decide_eq_true_eq, List.mem_range]
  constructor
  · rintro ⟨⟨hrow, hcol⟩, hbox⟩
    refine ⟨hrow, hcol, ?_⟩
    intro i hi j hj
    have h1 : i * bh ∈ List.range' 0 bw bh :=
      List.mem_range'.mpr ⟨i, hi, by ring⟩
    have h2 : j * bw ∈ List.range' 0 bh bw :=
      List.mem_range'.mpr ⟨j, hj, by ring⟩
    exact hbox _ h1 _ h2
  · rintro ⟨hrow, hcol, hbox⟩
    refine ⟨⟨hrow, hcol⟩, ?_⟩
    intro br hbr bc hbc
    obtain ⟨i, hi, he1⟩ := List.mem_range'.mp hbr
    obtain ⟨j, hj, he2⟩ := List.mem_range'.mp hbc
    have he1' : br = i * bh := by
      rw [he1, Nat.zero_add, Nat.mul_comm]
    have he2' : bc = j * bw := by
      rw [he2, Nat.zero_add, Nat.mul_comm]
    rw [he1', he2']
    exact hbox i hi j hj

lemma isValidPlacement_iff {g : Grid} {r c v bw bh : Nat} :
    isValidPlacement g r c v bw bh = true ↔
      v ∉ g.getD r [] ∧ (∀ r' < bw * bh, cell g r' c ≠ v) ∧
      (∀ s < bh, ∀ t < bw, cell g (r / bh * bh + s) (c / bw * bw + t) ≠ v) := by
  unfold isValidPlacement
  by_cases h1 : v ∈ g.getD r []
  · simp [h1]
  · rw [if_neg (by simpa using h1)]
    by_cases h2 : v ∈ (List.range (bw * bh)).map (fun r' => cell g r' c)
    · rw [if_pos (by simpa using h2)]
      obtain ⟨r', hr', he⟩ := List.mem_map.mp h2
      simp only [Bool.false_eq_true, false_iff]
      rintro ⟨-, hall, -⟩
      exact hall r' (List.mem_range.mp hr') he
    · rw [if_neg (by simpa using h2)]
      simp only [List.all_eq_true, List.mem_range, bne_iff_ne]
      constructor
      · intro hb
        refine ⟨h1, ?_, ?_⟩
        · intro r' hr' he
          exact h2 (List.mem_map.mpr ⟨r', List.mem_range.mpr hr', he⟩)
        · intro s hs t ht he
          exact hb s hs t ht he
      · rintro ⟨-, -, hb⟩
        intro s hs t ht
        exact hb s hs t ht

/-- Placing a valid value `1 ≤ v` in an empty cell of a board that passes
the initial validity scan yields a board that still passes it. -/
lemma isInitialBoardValid_setCell {g : Grid} {bw bh r c v : Nat}
    (hwf : WellFormed g (bw * bh)) (hr : r < bw * bh) (hc : c < bw * bh)
    (hz : cell g r c = 0) (hv1 : 1 ≤ v)
    (hvp : isValidPlacement g r c v bw bh = true)
    (hvalid : isInitialBoardValid g bw bh = true) :
    isInitialBoardValid (setCell g r c v) bw bh = true := by
  have hbw : 0 < bw := by
    rcases Nat.eq_zero_or_pos bw with h | h
    · subst h; simp at hr
    · exact h
  have hbh : 0 < bh := by
    rcases Nat.eq_zero_or_pos bh with h | h
    · subst h; simp at hr
    · exact h
  have hv0 : v ≠ 0 := by omega
  obtain ⟨hrow0, hcol0, hbox0⟩ := isInitialBoardValid_iff.mp hvalid
  obtain ⟨hprow, hpcol, hpbox⟩ := isValidPlacement_iff.mp hvp
  have hrlen : (g.getD r []).length = bw * bh := wellFormed_rowLen hwf hr
  apply isInitialBoardValid_iff.mpr
  refine ⟨?_, ?_, ?_⟩
  · -- rows
    intro row hrowmem
    rcases List.mem_or_eq_of_mem_set hrowmem with h | h
    · exact hrow0 _ h
    · subst h
      apply filter_nodup_set hv0
      · rw [getD_of_lt _ _ _ (by omega)]
        rw [← getD_of_lt _ _ 0 (by omega)]
        exact hz
      · exact hprow
      · exact hrow0 _ (by
          have hglen : r < g.length := hwf.1 ▸ hr
          rw [getD_of_lt _ _ _ hglen]
          exact List.getElem_mem hglen)
  · -- columns
    intro c' hc'
    by_cases hcc : c' = c
    · subst hcc
      rw [colList_setCell hwf hr hc']
      apply filter_nodup_set hv0
      · unfold colList
        rw [getD_map_range _ hr]
        exact hz
      · intro hmem
        unfold colList at hmem
        obtain ⟨r', hr', he⟩ := List.mem_map.mp hmem
        exact hpcol r' (List.mem_range.mp hr') he
      · exact hcol0 c' hc'
    · rw [colList_setCell_ne v hcc]
      exact hcol0 c' hc'
  · -- boxes
    intro i hi j hj
    by_cases hij : i = r / bh ∧ j = c / bw
    · obtain ⟨hi', hj'⟩ := hij
      subst hi'; subst hj'
      rw [boxCells_setCell hwf hr hc hbw hbh]
      apply filter_nodup_set hv0
      · have hk : r % bh * bw + c % bw < bh * bw := by
          have hmodr : r % bh < bh := Nat.mod_lt _ hbh
          have hmodc : c % bw < bw := Nat.mod_lt _ hbw
          calc r % bh * bw + c % bw < r % bh * bw + bw := by omega
          _ = (r % bh + 1) * bw := by ring
          _ ≤ bh * bw := Nat.mul_le_mul_right _ (Nat.succ_le_of_lt hmodr)
        rw [boxCells_eq_map_range _ _ _ _ _ hbw, getD_map_range _ hk]
        have hdivk : (r % bh * bw + c % bw) / bw = r % bh := by
          have hmodc : c % bw < bw := Nat.mod_lt _ hbw
          rw [Nat.mul_comm (r % bh) bw, Nat.mul_add_div hbw, Nat.div_eq_of_lt hmodc,
            Nat.add_zero]
        have hmodk : (r % bh * bw + c % bw) % bw = c % bw := by
          have hmodc : c % bw < bw := Nat.mod_lt _ hbw
          rw [Nat.mul_comm (r % bh) bw, Nat.mul_add_mod, Nat.mod_eq_of_lt hmodc]
        rw [hdivk, hmodk]
        have hrr : r / bh * bh + r % bh = r := by
          rw [Nat.mul_comm (r / bh) bh]; exact Nat.div_add_mod r bh
        have hcc : c / bw * bw + c % bw = c := by
          rw [Nat.mul_comm (c / bw) bw]; exact Nat.div_add_mod c bw
        rw [hrr, hcc, hz]
      · intro hmem
        obtain ⟨s, hs, t, ht, he⟩ := mem_boxCells.mp hmem
        exact hpbox s hs t ht he
      · exact hbox0 _ hi _ hj
    · rw [boxCells_setCell_ne hbw hbh (by tauto)]
      exact hbox0 _ hi _ hj

/-! ### Soundness of the backtracking search -/

lemma findSome?_isSome_of {α β : Type} {l : List α} {f : α → Option β} {a : α}
    (ha : a ∈ l) (h : (f a).isSome = true) : (l.findSome? f).isSome = true := by
  cases hn : l.findSome? f with
  | some b => rfl
  | none =>
    rw [List.findSome?_eq_none_iff] at hn
    rw [hn a ha] at h
    simp at h

lemma perm_range'_of_nodup {l : List Nat} {n : Nat} (hlen : l.length = n)
    (hnd : l.Nodup) (hmem : ∀ v ∈ l, 1 ≤ v ∧ v ≤ n) :
    l.Perm (List.range' 1 n) := by
  have hsub : l ⊆ List.range' 1 n := by
    intro v hv
    obtain ⟨h1, h2⟩ := hmem v hv
    exact List.mem_range'.mpr ⟨v - 1, by omega, by omega⟩
  refine (List.subperm_of_subset hnd hsub).perm_of_length_le ?_
  rw [List.length_range', hlen]

lemma mem_range'_one {v n : Nat} : v ∈ List.range' 1 n ↔ 1 ≤ v ∧ v ≤ n := by
  rw [List.mem_range']
  constructor
  · rintro ⟨i, hi, rfl⟩
    omega
  · rintro ⟨h1, h2⟩
    exact ⟨v - 1, by omega, by omega⟩

lemma searchGo_sound {bw bh : Nat} {cand : Grid → List Nat}
    (hcand : ∀ g' v, v ∈ cand g' → 1 ≤ v ∧ v ≤ bw * bh) :
    ∀ {fuel : Nat} {g sol : Grid}, WellFormed g (bw * bh) →
      isInitialBoardValid g bw bh = true →
      searchGo bw bh cand fuel g = some sol →
      WellFormed sol (bw * bh) ∧ isInitialBoardValid sol bw bh = true ∧
      (∀ r < bw * bh, ∀ c < bw * bh, cell g r c ≠ 0 → cell sol r c = cell g r c) ∧
      (∀ r < bw * bh, ∀ c < bw * bh, cell sol r c ≠ 0) ∧
      (∀ r < bw * bh, ∀ c < bw * bh, cell g r c = 0 →
        1 ≤ cell sol r c ∧ cell sol r c ≤ bw * bh) := by
  intro fuel
  induction fuel with
  | zero =>
    intro g sol _ _ h
    simp [searchGo] at h
  | succ f ih =>
    intro g sol hwf hvalid h
    rw [searchGo] at h
    cases hfe : findEmptyCell g (bw * bh) with
    | none =>
      rw [hfe] at h
      simp only [Option.some.injEq] at h
      subst h
      have hfull := findEmptyCell_eq_none_iff.mp hfe
      refine ⟨hwf, hvalid, ?_, hfull, ?_⟩
      · intro r hr c hc _
        rfl
      · intro r hr c hc hz
        exact absurd hz (hfull r hr c hc)
    | some rc =>
      obtain ⟨r, c⟩ := rc
      rw [hfe] at h
      simp only at h
      obtain ⟨v, hv, hfv⟩ := List.exists_of_findSome?_eq_some h
      by_cases hvp : isValidPlacement g r c v bw bh = true
      · rw [if_pos hvp] at hfv
        obtain ⟨hr, hc, hz⟩ := findEmptyCell_eq_some hfe
        obtain ⟨hv1, hvn⟩ := hcand g v hv
        have hwf' := wellFormed_setCell hwf r c v
        have hvalid' := isInitialBoardValid_setCell hwf hr hc hz hv1 hvp hvalid
        obtain ⟨hs1, hs2, hext, hfull, hrange⟩ := ih hwf' hvalid' hfv
        have hcellset : cell (setCell g r c v) r c = v :=
          cell_setCell_self_wf hwf v hr hc
        refine ⟨hs1, hs2, ?_, hfull, ?_⟩
        · intro r₂ hr₂ c₂ hc₂ hnz
          by_cases hrc : r₂ = r ∧ c₂ = c
          · obtain ⟨rfl, rfl⟩ := hrc
            exact absurd hz hnz
          · have hne : r₂ ≠ r ∨ c₂ ≠ c := by tauto
            have heq := cell_setCell_ne g r c v r₂ c₂ hne
            rw [← heq]
            exact hext r₂ hr₂ c₂ hc₂ (heq ▸ hnz)
        · intro r₂ hr₂ c₂ hc₂ hzz
          by_cases hrc : r₂ = r ∧ c₂ = c
          · obtain ⟨rfl, rfl⟩ := hrc
            have hnz : cell (setCell g r₂ c₂ v) r₂ c₂ ≠ 0 := by
              rw [hcellset]; omega
            have hse := hext r₂ hr₂ c₂ hc₂ hnz
            rw [hse, hcellset]
            omega
          · have hne : r₂ ≠ r ∨ c₂ ≠ c := by tauto
            have heq := cell_setCell_ne g r c v r₂ c₂ hne
            exact hrange r₂ hr₂ c₂ hc₂ (heq.trans hzz)
      · rw [if_neg hvp] at hfv
        cases hfv

/-- A fully filled, range-bounded board passing the validity scan is a
solution grid. -/
lemma full_valid_isSolutionGrid {g : Grid} {bw bh : Nat}
    (hwf : WellFormed g (bw * bh))
    (hfull : ∀ r < bw * bh, ∀ c < bw * bh, cell g r c ≠ 0)
    (hrange : ∀ r < bw * bh, ∀ c < bw * bh, cell g r c ≤ bw * bh)
    (hvalid : isInitialBoardValid g bw bh = true) :
    IsSolutionGrid g bw bh := by
  obtain ⟨hrow0, hcol0, hbox0⟩ := isInitialBoardValid_iff.mp hvalid
  refine ⟨hwf, ?_, ?_, ?_⟩
  · intro r hr
    have hmem : ∀ v ∈ rowList g (bw * bh) r, 1 ≤ v ∧ v ≤ bw * bh := by
      intro v hv
      obtain ⟨c, hcr, he⟩ := List.mem_map.mp hv
      have hc := List.mem_range.mp hcr
      have h1 := hfull r hr c hc
      have h2 := hrange r hr c hc
      omega
    apply perm_range'_of_nodup (by simp [rowList]) ?_ hmem
    have hglen : r < g.length := hwf.1 ▸ hr
    have hmemrow : g.getD r [] ∈ g := by
      rw [getD_of_lt _ _ _ hglen]
      exact List.getElem_mem hglen
    have := hrow0 _ hmemrow
    rw [List.filter_eq_self.mpr ?_] at this
    · rw [getD_row_eq_rowList hwf hr] at this
      exact this
    · intro a ha
      obtain ⟨cc, hcc, he⟩ := List.mem_map.mp ((getD_row_eq_rowList hwf hr) ▸ ha)
      have := hfull r hr cc (List.mem_range.mp hcc)
      simp [← he, this]
  · intro col hcol
    have hmem : ∀ v ∈ colList g (bw * bh) col, 1 ≤ v ∧ v ≤ bw * bh := by
      intro v hv
      obtain ⟨r, hrr, he⟩ := List.mem_map.mp hv
      have hr := List.mem_range.mp hrr
      have h1 := hfull r hr col hcol
      have h2 := hrange r hr col hcol
      omega
    apply perm_range'_of_nodup (by simp [colList]) ?_ hmem
    have := hcol0 col hcol
    rw [List.filter_eq_self.mpr ?_] at this
    · exact this
    · intro a ha
      obtain ⟨rr, hrr, he⟩ := List.mem_map.mp ha
      have := hfull rr (List.mem_range.mp hrr) col hcol
      simp [← he, this]
  · intro i hi j hj
    have hbw : 0 < bw := by omega
    have hbh : 0 < bh := by omega
    have hcellidx : ∀ s < bh, ∀ t < bw,
        i * bh + s < bw * bh ∧ j * bw + t < bw * bh := by
      intro s hs t ht
      constructor
      · calc i * bh + s < i * bh + bh := by omega
        _ = (i + 1) * bh := by ring
        _ ≤ bw * bh := Nat.mul_le_mul_right _ (by omega)
      · calc j * bw + t < j * bw + bw := by omega
        _ = (j + 1) * bw := by ring
        _ ≤ bh * bw := Nat.mul_le_mul_right _ (by omega)
        _ = bw * bh := Nat.mul_comm bh bw
    have hmem : ∀ v ∈ boxList g bw bh i j, 1 ≤ v ∧ v ≤ bw * bh := by
      intro v hv
      obtain ⟨s, hs, t, ht, he⟩ := mem_boxCells.mp hv
      obtain ⟨hri, hcj⟩ := hcellidx s hs t ht
      have h1 := hfull _ hri _ hcj
      have h2 := hrange _ hri _ hcj
      omega
    apply perm_range'_of_nodup ?_ ?_ hmem
    · unfold boxList
      rw [boxCells_eq_map_range _ _ _ _ _ hbw]
      simp [Nat.mul_comm bh bw]
    · have := hbox0 i hi j hj
      rw [List.filter_eq_self.mpr ?_] at this
      · exact this
      · intro a ha
        obtain ⟨s, hs, t, ht, he⟩ := mem_boxCells.mp ha
        obtain ⟨hri, hcj⟩ := hcellidx s hs t ht
        have := hfull _ hri _ hcj
        simp [← he, this]

/-! ### Completeness of the backtracking search -/

lemma injOn_of_nodup_map_range {m : Nat} {f : Nat → Nat}
    (hnd : ((List.range m).map f).Nodup) {i j : Nat} (hi : i < m) (hj : j < m)
    (he : f i = f j) : i = j := by
  have h1 : i < ((List.range m).map f).length := by simp [hi]
  have h2 : j < ((List.range m).map f).length := by simp [hj]
  have hg : ((List.range m).map f)[i] = ((List.range m).map f)[j] := by
    simp only [List.getElem_map, List.getElem_range]
    exact he
  exact (@List.Nodup.getElem_inj_iff _ _ hnd i h1 j h2).mp hg

lemma rowList_nodup_inj {sol : Grid} {n r : Nat}
    (hnd : (rowList sol n r).Nodup) {c₁ c₂ : Nat} (h1 : c₁ < n) (h2 : c₂ < n)
    (he : cell sol r c₁ = cell sol r c₂) : c₁ = c₂ :=
  injOn_of_nodup_map_range hnd h1 h2 he

lemma colList_nodup_inj {sol : Grid} {n c : Nat}
    (hnd : (colList sol n c).Nodup) {r₁ r₂ : Nat} (h1 : r₁ < n) (h2 : r₂ < n)
    (he : cell sol r₁ c = cell sol r₂ c) : r₁ = r₂ :=
  injOn_of_nodup_map_range hnd h1 h2 he

/-- If the full board `sol` extends `g` and has duplicate-free rows,
columns and boxes, then the value `sol` holds at an empty cell of `g`
passes the placement check on `g`. -/
lemma isValidPlacement_of_completion {g sol : Grid} {bw bh r c : Nat}
    (hwf : WellFormed g (bw * bh)) (hr : r < bw * bh) (hc : c < bw * bh)
    (hz : cell g r c = 0) (hsol : IsSolutionGrid sol bw bh)
    (hext : ∀ r' < bw * bh, ∀ c' < bw * bh, cell g r' c' ≠ 0 →
      cell sol r' c' = cell g r' c') :
    isValidPlacement g r c (cell sol r c) bw bh = true := by
  obtain ⟨hwfs, hrows, hcols, hboxes⟩ := hsol
  have hbw : 0 < bw := by
    rcases Nat.eq_zero_or_pos bw with h | h
    · subst h; simp at hr
    · exact h
  have hbh : 0 < bh := by
    rcases Nat.eq_zero_or_pos bh with h | h
    · subst h; simp at hr
    · exact h
  set v := cell sol r c with hv
  have hvrange : 1 ≤ v ∧ v ≤ bw * bh := by
    have hmem : v ∈ rowList sol (bw * bh) r :=
      List.mem_map.mpr ⟨c, List.mem_range.mpr hc, rfl⟩
    exact mem_range'_one.mp ((hrows r hr).subset hmem)
  apply isValidPlacement_iff.mpr
  refine ⟨?_, ?_, ?_⟩
  · -- row check
    intro hmem
    rw [getD_row_eq_rowList hwf hr] at hmem
    obtain ⟨c', hc', he⟩ := List.mem_map.mp hmem
    have hc'n := List.mem_range.mp hc'
    have hnz : cell g r c' ≠ 0 := by omega
    have hsolc' : cell sol r c' = v := (hext r hr c' hc'n hnz).trans he
    have : c' = c :=
      rowList_nodup_inj ((hrows r hr).symm.nodup (List.nodup_range' 1 (bw * bh)))
        hc'n hc hsolc'
    rw [this] at he
    omega
  · -- column check
    intro r' hr' he
    have hnz : cell g r' c ≠ 0 := by omega
    have hsolr' : cell sol r' c = v := (hext r' hr' c hc hnz).trans he
    have : r' = r :=
      colList_nodup_inj ((hcols c hc).symm.nodup (List.nodup_range' 1 (bw * bh)))
        hr' hr hsolr'
    rw [this] at he
    rw [he] at hz
    omega
  · -- box check
    intro s hs t ht he
    have hdivr : r / bh < bw := by
      rw [Nat.div_lt_iff_lt_mul hbh]
      exact hr
    have hdivc : c / bw < bh := by
      rw [Nat.div_lt_iff_lt_mul hbw, Nat.mul_comm bh bw]
      exact hc
    have hrin : r / bh * bh + s < bw * bh := by
      calc r / bh * bh + s < r / bh * bh + bh := by omega
      _ = (r / bh + 1) * bh := by ring
      _ ≤ bw * bh := Nat.mul_le_mul_right _ (by omega)
    have hcin : c / bw * bw + t < bw * bh := by
      calc c / bw * bw + t < c / bw * bw + bw := by omega
      _ = (c / bw + 1) * bw := by ring
      _ ≤ bh * bw := Nat.mul_le_mul_right _ (by omega)
      _ = bw * bh := Nat.mul_comm bh bw
    have hnz : cell g (r / bh * bh + s) (c / bw * bw + t) ≠ 0 := by omega
    have hsolbox : cell sol (r / bh * bh + s) (c / bw * bw + t) = v :=
      (hext _ hrin _ hcin hnz).trans he
    -- both cells lie in the box (r / bh, c / bw) of `sol`
    have hboxnd : (boxList sol bw bh (r / bh) (c / bw)).Nodup :=
      (hboxes _ hdivr _ hdivc).symm.nodup (List.nodup_range' 1 (bw * bh))
    have hboxmap : boxList sol bw bh (r / bh) (c / bw) =
        (List.range (bh * bw)).map
          (fun u => cell sol (r / bh * bh + u / bw) (c / bw * bw + u % bw)) := by
      unfold boxList
      exact boxCells_eq_map_range _ _ _ _ _ hbw
    rw [hboxmap] at hboxnd
    have hmodr : r % bh < bh := Nat.mod_lt _ hbh
    have hmodc : c % bw < bw := Nat.mod_lt _ hbw
    have hk1 : s * bw + t < bh * bw := by
      calc s * bw + t < s * bw + bw := by omega
      _ = (s + 1) * bw := by ring
      _ ≤ bh * bw := Nat.mul_le_mul_right _ (by omega)
    have hk2 : r % bh * bw + c % bw < bh * bw := by
      calc r % bh * bw + c % bw < r % bh * bw + bw := by omega
      _ = (r % bh + 1) * bw := by ring
      _ ≤ bh * bw := Nat.mul_le_mul_right _ (by omega)
    have hdm1 : (s * bw + t) / bw = s := by
      rw [Nat.mul_comm s bw, Nat.mul_add_div hbw, Nat.div_eq_of_lt ht, Nat.add_zero]
    have hdm2 : (s * bw + t) % bw = t := by
      rw [Nat.mul_comm s bw, Nat.mul_add_mod, Nat.mod_eq_of_lt ht]
    have hdm3 : (r % bh * bw + c % bw) / bw = r % bh := by
      rw [Nat.mul_comm (r % bh) bw, Nat.mul_add_div hbw, Nat.div_eq_of_lt hmodc,
        Nat.add_zero]
    have hdm4 : (r % bh * bw + c % bw) % bw = c % bw := by
      rw [Nat.mul_comm (r % bh) bw, Nat.mul_add_mod, Nat.mod_eq_of_lt hmodc]
    have hrr : r / bh * bh + r % bh = r := by
      rw [Nat.mul_comm (r / bh) bh]; exact Nat.div_add_mod r bh
    have hcc : c / bw * bw + c % bw = c := by
      rw [Nat.mul_comm (c / bw) bw]; exact Nat.div_add_mod c bw
    have heq : (s * bw + t) = (r % bh * bw + c % bw) := by
      apply injOn_of_nodup_map_range hboxnd hk1 hk2
      rw [hdm1, hdm2, hdm3, hdm4, hrr, hcc]
      exact hsolbox
    have hs' : s = r % bh := by
      rw [← hdm1, heq, hdm3]
    have ht' : t = c % bw := by
      rw [← hdm2, heq, hdm4]
    rw [hs', ht', hrr, hcc] at hnz
    exact hnz hz

lemma searchGo_complete {bw bh : Nat} {cand : Grid → List Nat}
    (hcand : ∀ g', List.range' 1 (bw * bh) ⊆ cand g') :
    ∀ {fuel : Nat} {g sol : Grid}, WellFormed g (bw * bh) →
      countEmpty g (bw * bh) < fuel →
      IsCompletion g sol bw bh →
      (searchGo bw bh cand fuel g).isSome = true := by
  intro fuel
  induction fuel with
  | zero =>
    intro g sol _ hf _
    omega
  | succ f ih =>
    intro g sol hwf hf hcomp
    rw [searchGo]
    cases hfe : findEmptyCell g (bw * bh) with
    | none => simp
    | some rc =>
      obtain ⟨r, c⟩ := rc
      simp only
      obtain ⟨hr, hc, hz⟩ := findEmptyCell_eq_some hfe
      obtain ⟨hsol, hext⟩ := hcomp
      set v := cell sol r c with hv
      have hvrange : 1 ≤ v ∧ v ≤ bw * bh := by
        have hmem : v ∈ rowList sol (bw * bh) r :=
          List.mem_map.mpr ⟨c, List.mem_range.mpr hc, rfl⟩
        exact mem_range'_one.mp ((hsol.2.1 r hr).subset hmem)
      have hvcand : v ∈ cand g := hcand g (mem_range'_one.mpr hvrange)
      have hvp : isValidPlacement g r c v bw bh = true :=
        isValidPlacement_of_completion hwf hr hc hz hsol hext
      apply findSome?_isSome_of hvcand
      rw [if_pos hvp]
      have hcellset : cell (setCell g r c v) r c = v :=
        cell_setCell_self_wf hwf v hr hc
      apply ih (wellFormed_setCell hwf r c v)
      · have := countEmpty_setCell_lt hwf hr hc hz
          (Nat.one_le_iff_ne_zero.mp hvrange.1)
        omega
      · refine ⟨hsol, ?_⟩
        intro r' hr' c' hc' hnz
        by_cases hrc : r' = r ∧ c' = c
        · obtain ⟨rfl, rfl⟩ := hrc
          rw [hcellset]
        · have hne : r' ≠ r ∨ c' ≠ c := by tauto
          have heq := cell_setCell_ne g r c v r' c' hne
          rw [heq]
          exact hext r' hr' c' hc' (heq ▸ hnz)

/-! ### A solution exists for every box shape: the cyclic pattern grid -/

/-- The standard cyclic Sudoku solution for a `bw*bh × bw*bh` board with
`bh × bw` boxes; used as the existence witness for the completeness
argument (not part of the translated code). -/
def patternGrid (bw bh : Nat) : Grid :=
  (List.range (bw * bh)).map (fun r =>
    (List.range (bw * bh)).map (fun c =>
      (r % bh * bw + r / bh + c) % (bw * bh) + 1))

lemma getD_map_range_any {α : Type} {m k : Nat} (f : Nat → α) (d : α) (hk : k < m) :
    ((List.range m).map f).getD k d = f k := by
  have hlen : k < ((List.range m).map f).length := by simp [hk]
  rw [getD_of_lt _ _ _ hlen, List.getElem_map, List.getElem_range]

lemma getD_of_le {α : Type} (l : List α) (k : Nat) (d : α) (h : l.length ≤ k) :
    l.getD k d = d := by
  rw [List.getD_eq_getElem?_getD, List.getElem?_eq_none h, Option.getD_none]

lemma cell_patternGrid {bw bh r c : Nat} (hr : r < bw * bh) (hc : c < bw * bh) :
    cell (patternGrid bw bh) r c = (r % bh * bw + r / bh + c) % (bw * bh) + 1 := by
  unfold cell patternGrid
  rw [getD_map_range_any _ _ hr, getD_map_range_any _ _ hc]

lemma wellFormed_patternGrid (bw bh : Nat) :
    WellFormed (patternGrid bw bh) (bw * bh) := by
  constructor
  · simp [patternGrid]
  · intro row hrow
    unfold patternGrid at hrow
    obtain ⟨r, _, rfl⟩ := List.mem_map.mp hrow
    simp

lemma perm_range_of_nodup {l : List Nat} {n : Nat} (hlen : l.length = n)
    (hnd : l.Nodup) (hmem : ∀ v ∈ l, v < n) : l.Perm (List.range n) := by
  have hsub : l ⊆ List.range n := fun v hv => List.mem_range.mpr (hmem v hv)
  refine (List.subperm_of_subset hnd hsub).perm_of_length_le ?_
  rw [List.length_range, hlen]

lemma perm_mod_shift {n K : Nat} (hn : 0 < n) :
    ((List.range n).map (fun x => (K + x) % n + 1)).Perm (List.range' 1 n) := by
  apply perm_range'_of_nodup (by simp)
  · apply List.Nodup.map_on ?_ (List.nodup_range n)
    intro x hx y hy he
    have hx' := List.mem_range.mp hx
    have hy' := List.mem_range.mp hy
    have he' : (K + x) % n = (K + y) % n := by omega
    have h2 : Nat.ModEq n x y := Nat.ModEq.add_left_cancel' K he'
    unfold Nat.ModEq at h2
    rw [Nat.mod_eq_of_lt hx', Nat.mod_eq_of_lt hy'] at h2
    exact h2
  · intro v hv
    obtain ⟨x, _, rfl⟩ := List.mem_map.mp hv
    have := Nat.mod_lt (K + x) hn
    omega

lemma psi_perm {bw bh : Nat} (hbw : 0 < bw) (hbh : 0 < bh) :
    ((List.range (bw * bh)).map (fun r => r % bh * bw + r / bh)).Perm
      (List.range (bw * bh)) := by
  apply perm_range_of_nodup (by simp)
  · apply List.Nodup.map_on ?_ (List.nodup_range _)
    intro x hx y hy he
    have hx' := List.mem_range.mp hx
    have hy' := List.mem_range.mp hy
    have hdx : x / bh < bw := by
      rw [Nat.div_lt_iff_lt_mul hbh]
      exact hx'
    have hdy : y / bh < bw := by
      rw [Nat.div_lt_iff_lt_mul hbh]
      exact hy'
    have e1 : (x % bh * bw + x / bh) / bw = x % bh := by
      rw [Nat.mul_comm (x % bh) bw, Nat.mul_add_div hbw, Nat.div_eq_of_lt hdx,
        Nat.add_zero]
    have e2 : (x % bh * bw + x / bh) % bw = x / bh := by
      rw [Nat.mul_comm (x % bh) bw, Nat.mul_add_mod, Nat.mod_eq_of_lt hdx]
    have e3 : (y % bh * bw + y / bh) / bw = y % bh := by
      rw [Nat.mul_comm (y % bh) bw, Nat.mul_add_div hbw, Nat.div_eq_of_lt hdy,
        Nat.add_zero]
    have e4 : (y % bh * bw + y / bh) % bw = y / bh := by
      rw [Nat.mul_comm (y % bh) bw, Nat.mul_add_mod, Nat.mod_eq_of_lt hdy]
    have hm : x % bh = y % bh := by rw [← e1, he, e3]
    have hd : x / bh = y / bh := by rw [← e2, he, e4]
    have hxe : x / bh * bh + x % bh = x := by
      rw [Nat.mul_comm (x / bh) bh]; exact Nat.div_add_mod x bh
    have hye : y / bh * bh + y % bh = y := by
      rw [Nat.mul_comm (y / bh) bh]; exact Nat.div_add_mod y bh
    calc x = x / bh * bh + x % bh := hxe.symm
    _ = y / bh * bh + y % bh := by rw [hd, hm]
    _ = y := hye
  · intro v hv
    obtain ⟨r, _, rfl⟩ := List.mem_map.mp hv
    have h1 : r % bh < bh := Nat.mod_lt _ hbh
    have h2 : r / bh < bw := by
      rw [Nat.div_lt_iff_lt_mul hbh]
      exact List.mem_range.mp (by assumption)
    calc r % bh * bw + r / bh < r % bh * bw + bw := by omega
    _ = (r % bh + 1) * bw := by ring
    _ ≤ bh * bw := Nat.mul_le_mul_right _ (by omega)
    _ = bw * bh := Nat.mul_comm bh bw

lemma patternGrid_isSolution {bw bh : Nat} (hbw : 0 < bw) (hbh : 0 < bh) :
    IsSolutionGrid (patternGrid bw bh) bw bh := by
  have hn : 0 < bw * bh := Nat.mul_pos hbw hbh
  refine ⟨wellFormed_patternGrid bw bh, ?_, ?_, ?_⟩
  · intro r hr
    have hrow : rowList (patternGrid bw bh) (bw * bh) r =
        (List.range (bw * bh)).map
          (fun c => (r % bh * bw + r / bh + c) % (bw * bh) + 1) := by
      apply List.map_congr_left
      intro c hcm
      exact cell_patternGrid hr (List.mem_range.mp hcm)
    rw [hrow]
    exact perm_mod_shift hn
  · intro c hc
    have hcol : colList (patternGrid bw bh) (bw * bh) c =
        ((List.range (bw * bh)).map (fun r => r % bh * bw + r / bh)).map
          (fun x => (c + x) % (bw * bh) + 1) := by
      rw [List.map_map]
      apply List.map_congr_left
      intro r hrm
      have hr := List.mem_range.mp hrm
      simp only [Function.comp]
      rw [cell_patternGrid hr hc]
      have : r % bh * bw + r / bh + c = c + (r % bh * bw + r / bh) := by ring
      rw [this]
    rw [hcol]
    exact ((psi_perm hbw hbh).map (fun x => (c + x) % (bw * bh) + 1)).trans
      (perm_mod_shift hn)
  · intro i hi j hj
    have hbox : boxList (patternGrid bw bh) bw bh i j =
        (List.range (bh * bw)).map (fun t => (i + j * bw + t) % (bw * bh) + 1) := by
      unfold boxList
      rw [boxCells_eq_map_range _ _ _ _ _ hbw]
      apply List.map_congr_left
      intro t htm
      have ht := List.mem_range.mp htm
      have hs : t / bw < bh := div_lt_of_lt_mul hbw ht
      have hu : t % bw < bw := Nat.mod_lt _ hbw
      have hridx : i * bh + t / bw < bw * bh := by
        calc i * bh + t / bw < i * bh + bh := by omega
        _ = (i + 1) * bh := by ring
        _ ≤ bw * bh := Nat.mul_le_mul_right _ (by omega)
      have hcidx : j * bw + t % bw < bw * bh := by
        calc j * bw + t % bw < j * bw + bw := by omega
        _ = (j + 1) * bw := by ring
        _ ≤ bh * bw := Nat.mul_le_mul_right _ (by omega)
        _ = bw * bh := Nat.mul_comm bh bw
      rw [cell_patternGrid hridx hcidx]
      have e1 : (i * bh + t / bw) % bh = t / bw := by
        rw [Nat.mul_comm i bh, Nat.mul_add_mod, Nat.mod_eq_of_lt hs]
      have e2 : (i * bh + t / bw) / bh = i := by
        rw [Nat.mul_comm i bh, Nat.mul_add_div hbh, Nat.div_eq_of_lt hs, Nat.add_zero]
      rw [e1, e2]
      have e3 : t / bw * bw + t % bw = t := by
        rw [Nat.mul_comm (t / bw) bw]; exact Nat.div_add_mod t bw
      have e4 : t / bw * bw + i + (j * bw + t % bw) = i + j * bw + t := by omega
      rw [e4]
    rw [hbox, Nat.mul_comm bh bw]
    exact perm_mod_shift hn

/-! ### The all-zero start board -/

lemma wellFormed_emptyGrid (n : Nat) : WellFormed (emptyGrid n) n := by
  constructor
  · simp [emptyGrid]
  · intro row hrow
    unfold emptyGrid at hrow
    obtain ⟨r, _, rfl⟩ := List.mem_map.mp hrow
    simp

lemma cell_emptyGrid (n r c : Nat) : cell (emptyGrid n) r c = 0 := by
  unfold cell
  by_cases hr : r < n
  · have hrow : (emptyGrid n).getD r [] = (List.range n).map (fun _ => 0) := by
      unfold emptyGrid
      rw [getD_map_range_any _ _ hr]
    rw [hrow]
    by_cases hc : c < n
    · rw [getD_map_range_any _ _ hc]
    · rw [getD_of_le _ _ _ (by simp [Nat.le_of_not_lt hc])]
  · have hrow : (emptyGrid n).getD r [] = [] := by
      apply getD_of_le
      simp [emptyGrid, Nat.le_of_not_lt hr]
    rw [hrow]
    rw [getD_of_le _ _ _ (by simp)]

lemma isInitialBoardValid_emptyGrid (bw bh : Nat) :
    isInitialBoardValid (emptyGrid (bw * bh)) bw bh = true := by
  apply isInitialBoardValid_iff.mpr
  refine ⟨?_, ?_, ?_⟩
  · intro row hrow
    unfold emptyGrid at hrow
    obtain ⟨r, _, rfl⟩ := List.mem_map.mp hrow
    have : ((List.range (bw * bh)).map (fun _ => 0)).filter (fun x => x != 0)
        = [] := by
      apply List.filter_eq_nil_iff.mpr
      intro a ha
      obtain ⟨_, _, rfl⟩ := List.mem_map.mp ha
      simp
    rw [this]
    exact List.nodup_nil
  · intro c _
    have : (colList (emptyGrid (bw * bh)) (bw * bh) c).filter (fun x => x != 0)
        = [] := by
      apply List.filter_eq_nil_iff.mpr
      intro a ha
      obtain ⟨r, _, rfl⟩ := List.mem_map.mp ha
      simp [cell_emptyGrid]
    rw [this]
    exact List.nodup_nil
  · intro i _ j _
    have : (boxCells (emptyGrid (bw * bh)) (i * bh) (j * bw) bw bh).filter
        (fun x => x != 0) = [] := by
      apply List.filter_eq_nil_iff.mpr
      intro a ha
      obtain ⟨s, _, t, _, rfl⟩ := mem_boxCells.mp ha
      simp [cell_emptyGrid]
    rw [this]
    exact List.nodup_nil

lemma emptyGrid_hasCompletion {bw bh : Nat} (hbw : 0 < bw) (hbh : 0 < bh) :
    IsCompletion (emptyGrid (bw * bh)) (patternGrid bw bh) bw bh := by
  refine ⟨patternGrid_isSolution hbw hbh, ?_⟩
  intro r _ c _ hnz
  exact absurd (cell_emptyGrid _ r c) hnz

/-! ### Scan validity and fullness of a solution grid -/

lemma isInitialBoardValid_of_solution {g : Grid} {bw bh : Nat}
    (hsol : IsSolutionGrid g bw bh) : isInitialBoardValid g bw bh = true := by
  obtain ⟨hwf, hrows, hcols, hboxes⟩ := hsol
  apply isInitialBoardValid_iff.mpr
  refine ⟨?_, ?_, ?_⟩
  · intro row hrow
    obtain ⟨r, hrlen, rfl⟩ := List.mem_iff_getElem.mp hrow
    have hr : r < bw * bh := hwf.1 ▸ hrlen
    have hroweq : g[r] = rowList g (bw * bh) r := by
      rw [← getD_of_lt _ _ ([] : List Nat) hrlen]
      exact getD_row_eq_rowList hwf hr
    rw [hroweq]
    exact ((hrows r hr).symm.nodup (List.nodup_range' 1 (bw * bh))).filter _
  · intro c hc
    exact ((hcols c hc).symm.nodup (List.nodup_range' 1 (bw * bh))).filter _
  · intro i hi j hj
    exact ((hboxes i hi j hj).symm.nodup (List.nodup_range' 1 (bw * bh))).filter _

lemma findEmptyCell_of_solution {g : Grid} {bw bh : Nat}
    (hsol : IsSolutionGrid g bw bh) : findEmptyCell g (bw * bh) = none := by
  apply findEmptyCell_eq_none_iff.mpr
  intro r hr c hc hz
  have hmem : cell g r c ∈ rowList g (bw * bh) r :=
    List.mem_map.mpr ⟨c, List.mem_range.mpr hc, rfl⟩
  have := mem_range'_one.mp ((hsol.2.1 r hr).subset hmem)
  omega

instance wellFormedDecidable (g : Grid) (n : Nat) : Decidable (WellFormed g n) := by
  unfold WellFormed
  infer_instance

instance hasDuplicateDecidable (g : Grid) (bw bh : Nat) :
    Decidable (HasDuplicate g bw bh) := by
  unfold HasDuplicate
  infer_instance

instance isSolutionGridDecidable (g : Grid) (bw bh : Nat) :
    Decidable (IsSolutionGrid g bw bh) := by
  unfold IsSolutionGrid
  infer_instance

instance isCompletionDecidable (g sol : Grid) (bw bh : Nat) :
    Decidable (IsCompletion g sol bw bh) := by
  unfold IsCompletion
  infer_instance

lemma isInitialBoardValid_false_of_dup {g : Grid} {bw bh : Nat}
    (hwf : WellFormed g (bw * bh)) (hdup : HasDuplicate g bw bh) :
    isInitialBoardValid g bw bh = false := by
  rw [← Bool.not_eq_true]
  intro hvalid
  obtain ⟨hrow, hcol, hbox⟩ := isInitialBoardValid_iff.mp hvalid
  rcases hdup with ⟨r, hr, hnd⟩ | ⟨c, hc, hnd⟩ | ⟨i, hi, j, hj, hnd⟩
  · apply hnd
    rw [← getD_row_eq_rowList hwf hr]
    apply hrow
    have hglen : r < g.length := hwf.1 ▸ hr
    rw [getD_of_lt _ _ _ hglen]
    exact List.getElem_mem hglen
  · exact hnd (hcol c hc)
  · exact hnd (hbox i hi j hj)

/-! ### Claim theorems: the solver -/

/-- Claim C3: on a well-formed board that contains a duplicate non-zero
value in some row, column or box, `solve` returns NONE; the duplicate
makes the initial full-board validity scan fail, and that scan is the
guard `solve` evaluates before any backtracking search, so the search is
never entered. -/
theorem solve_rejects_duplicates (g : Grid) (bw bh : Nat)
    (hwf : WellFormed g (bw * bh)) (hdup : HasDuplicate g bw bh) :
    solve g bw bh = none := by
  unfold solve
  rw [isInitialBoardValid_false_of_dup hwf hdup]
  simp

/-- Witness for C3: the 9×9 grid of zeros except two 1s in row 0 yields
NONE. -/
theorem solve_rejects_duplicates_wit :
    solve [[1,1,0,0,0,0,0,0,0],[0,0,0,0,0,0,0,0,0],[0,0,0,0,0,0,0,0,0],
      [0,0,0,0,0,0,0,0,0],[0,0,0,0,0,0,0,0,0],[0,0,0,0,0,0,0,0,0],
      [0,0,0,0,0,0,0,0,0],[0,0,0,0,0,0,0,0,0],[0,0,0,0,0,0,0,0,0]] 3 3
      = none :=
  solve_rejects_duplicates _ 3 3 (by decide) (by decide)

/-- Claim C4 (amended): whenever `solve` on a well-formed board returns a
grid, that grid has no zeros and passes the full-board validity scan; if
moreover the input grid's entries lie in `0..N`, every row, column and
box of the returned grid is a permutation of `1..N`.  (The permutation
conclusion genuinely needs the extra range hypothesis, see
`solve_perm_cex`.) -/
theorem solve_sound_thm (g : Grid) (bw bh : Nat) (sol : Grid)
    (hwf : WellFormed g (bw * bh)) (h : solve g bw bh = some sol) :
    (∀ r < bw * bh, ∀ c < bw * bh, cell sol r c ≠ 0) ∧
    isInitialBoardValid sol bw bh = true ∧
    ((∀ r < bw * bh, ∀ c < bw * bh, cell g r c ≤ bw * bh) →
      IsSolutionGrid sol bw bh) := by
  unfold solve at h
  by_cases hvalid : isInitialBoardValid g bw bh = true
  · rw [if_pos hvalid] at h
    have hbounds : ∀ g' v, v ∈ (fun _ : Grid => List.range' 1 (bw * bh)) g' →
        1 ≤ v ∧ v ≤ bw * bh := fun g' v hv => mem_range'_one.mp hv
    obtain ⟨hwfs, hvs, hext, hfull, hrange⟩ := searchGo_sound hbounds hwf hvalid h
    refine ⟨hfull, hvs, ?_⟩
    intro hin
    apply full_valid_isSolutionGrid hwfs hfull ?_ hvs
    intro r hr c hc
    by_cases hz : cell g r c = 0
    · exact (hrange r hr c hc hz).2
    · rw [hext r hr c hc hz]
      exact hin r hr c hc
  · rw [if_neg hvalid] at h
    cases h

/-- Counterexample for C4 as frozen: with an out-of-range given (a 5 on a
2×2 board) `solve` succeeds, the output passes the validity scan, but row
0 of the output is not a permutation of `1..2`. -/
theorem solve_perm_cex :
    solve [[5, 0], [0, 0]] 2 1 = some [[5, 1], [1, 2]] ∧
    isInitialBoardValid [[5, 1], [1, 2]] 2 1 = true ∧
    ¬ (rowList [[5, 1], [1, 2]] (2 * 1) 0).Perm (List.range' 1 (2 * 1)) := by
  refine ⟨by decide, by decide, by decide⟩

/-- Witness for C4. -/
theorem solve_sound_thm_wit :
    (∀ r < 1 * 1, ∀ c < 1 * 1, cell [[1]] r c ≠ 0) ∧
    isInitialBoardValid [[1]] 1 1 = true ∧
    ((∀ r < 1 * 1, ∀ c < 1 * 1, cell [[0]] r c ≤ 1 * 1) →
      IsSolutionGrid [[1]] 1 1) :=
  solve_sound_thm [[0]] 1 1 [[1]] (by decide) (by decide)

/-- Claim C8: `solve` applied to a valid solved grid returns that grid
unchanged. -/
theorem solve_idempotent_on_solved (g : Grid) (bw bh : Nat)
    (hsol : IsSolutionGrid g bw bh) : solve g bw bh = some g := by
  unfold solve
  rw [if_pos (isInitialBoardValid_of_solution hsol)]
  simp only [searchGo, findEmptyCell_of_solution hsol]

/-- Witness for C8. -/
theorem solve_idempotent_on_solved_wit :
    solve [[1, 2], [2, 1]] 2 1 = some [[1, 2], [2, 1]] :=
  solve_idempotent_on_solved [[1, 2], [2, 1]] 2 1 (by decide)

/-! ### Counting solutions: relating the capped count to the full
enumeration of completions -/

/-- Ghost enumeration: the complete grids the uncapped counting recursion
reaches (the capped `countGo` visits a prefix of them). -/
def solutionsList (bw bh : Nat) : Nat → Grid → List Grid
  | 0, _ => []
  | fuel + 1, g =>
    match findEmptyCell g (bw * bh) with
    | none => [g]
    | some (r, c) =>
      (List.range' 1 (bw * bh)).flatMap (fun v =>
        if isValidPlacement g r c v bw bh then
          solutionsList bw bh fuel (setCell g r c v)
        else [])

lemma countLoop_le {bw bh m : Nat} {f : Grid → Nat} {S : Grid → List Grid}
    {g : Grid} {r c : Nat}
    (hf : ∀ v, f (setCell g r c v) ≤ (S (setCell g r c v)).length) :
    ∀ (vs : List Nat) (acc : Nat),
      countLoop bw bh m f g r c vs acc ≤
        acc + (vs.flatMap (fun v =>
          if isValidPlacement g r c v bw bh then S (setCell g r c v)
          else [])).length := by
  intro vs
  induction vs with
  | nil =>
    intro acc
    simp [countLoop]
  | cons v rest ih =>
    intro acc
    by_cases hv : isValidPlacement g r c v bw bh = true
    · by_cases hm : m ≤ acc + f (setCell g r c v)
      · simp only [countLoop, if_pos hv, if_pos hm, List.flatMap_cons, if_pos hv,
          List.length_append]
        have := hf v
        omega
      · simp only [countLoop, if_pos hv, if_neg hm, List.flatMap_cons, if_pos hv,
          List.length_append]
        have h1 := ih (acc + f (setCell g r c v))
        have h2 := hf v
        omega
    · simp only [countLoop, if_neg hv, List.flatMap_cons, if_neg hv, List.nil_append]
      exact ih acc

lemma countLoop_ge {bw bh m : Nat} {f : Grid → Nat} {S : Grid → List Grid}
    {g : Grid} {r c : Nat}
    (hf : ∀ v, min ((S (setCell g r c v)).length) m ≤ f (setCell g r c v)) :
    ∀ (vs : List Nat) (acc : Nat),
      min (acc + (vs.flatMap (fun v =>
          if isValidPlacement g r c v bw bh then S (setCell g r c v)
          else [])).length) m ≤
        countLoop bw bh m f g r c vs acc := by
  intro vs
  induction vs with
  | nil =>
    intro acc
    simp only [countLoop, List.flatMap_nil, List.length_nil, Nat.add_zero]
    omega
  | cons v rest ih =>
    intro acc
    by_cases hv : isValidPlacement g r c v bw bh = true
    · by_cases hm : m ≤ acc + f (setCell g r c v)
      · simp only [countLoop, if_pos hv, if_pos hm, List.flatMap_cons, if_pos hv,
          List.length_append]
        omega
      · simp only [countLoop, if_pos hv, if_neg hm, List.flatMap_cons, if_pos hv,
          List.length_append]
        have h1 := ih (acc + f (setCell g r c v))
        have h2 := hf v
        omega
    · simp only [countLoop, if_neg hv, List.flatMap_cons, if_neg hv, List.nil_append]
      exact ih acc

lemma countGo_le_length (bw bh m : Nat) :
    ∀ (fuel : Nat) (g : Grid),
      countGo bw bh m fuel g ≤ (solutionsList bw bh fuel g).length := by
  intro fuel
  induction fuel with
  | zero =>
    intro g
    simp [countGo, solutionsList]
  | succ f ih =>
    intro g
    rw [countGo, solutionsList]
    cases hfe : findEmptyCell g (bw * bh) with
    | none => simp
    | some rc =>
      obtain ⟨r, c⟩ := rc
      simp only
      have h := @countLoop_le bw bh m (fun g' => countGo bw bh m f g')
        (solutionsList bw bh f) g r c (fun v => ih (setCell g r c v))
        (List.range' 1 (bw * bh)) 0
      simpa using h

lemma countGo_ge_min (bw bh m : Nat) :
    ∀ (fuel : Nat) (g : Grid),
      min ((solutionsList bw bh fuel g).length) m ≤ countGo bw bh m fuel g := by
  intro fuel
  induction fuel with
  | zero =>
    intro g
    simp [countGo, solutionsList]
  | succ f ih =>
    intro g
    rw [countGo, solutionsList]
    cases hfe : findEmptyCell g (bw * bh) with
    | none =>
      simp only [List.length_singleton]
      omega
    | some rc =>
      obtain ⟨r, c⟩ := rc
      simp only
      have h := @countLoop_ge bw bh m (fun g' => countGo bw bh m f g')
        (solutionsList bw bh f) g r c (fun v => ih (setCell g r c v))
        (List.range' 1 (bw * bh)) 0
      simpa using h

lemma cell_eq_getElem {g : Grid} {r c : Nat}
    (h1 : r < g.length) (h2 : c < g[r].length) : cell g r c = g[r][c] := by
  unfold cell
  rw [getD_of_lt _ _ _ h1, getD_of_lt _ _ _ h2]

lemma grid_ext {g₁ g₂ : Grid} {n : Nat} (h1 : WellFormed g₁ n) (h2 : WellFormed g₂ n)
    (h : ∀ r < n, ∀ c < n, cell g₁ r c = cell g₂ r c) : g₁ = g₂ := by
  apply List.ext_getElem (by rw [h1.1, h2.1])
  intro r hr1 hr2
  have hrn : r < n := h1.1 ▸ hr1
  have hl1 : g₁[r].length = n := h1.2 _ (List.getElem_mem hr1)
  have hl2 : g₂[r].length = n := h2.2 _ (List.getElem_mem hr2)
  apply List.ext_getElem (by rw [hl1, hl2])
  intro c hc1 hc2
  have hcn : c < n := hl1 ▸ hc1
  rw [← cell_eq_getElem hr1 hc1, ← cell_eq_getElem hr2 hc2]
  exact h r hrn c hcn

lemma mem_solutionsList {bw bh : Nat} :
    ∀ {fuel : Nat} {g sol : Grid}, WellFormed g (bw * bh) →
      isInitialBoardValid g bw bh = true →
      (∀ r < bw * bh, ∀ c < bw * bh, cell g r c ≤ bw * bh) →
      countEmpty g (bw * bh) < fuel →
      (sol ∈ solutionsList bw bh fuel g ↔ IsCompletion g sol bw bh) := by
  intro fuel
  induction fuel with
  | zero =>
    intro g sol _ _ _ hf
    omega
  | succ f ih =>
    intro g sol hwf hvalid hrange hf
    rw [solutionsList]
    cases hfe : findEmptyCell g (bw * bh) with
    | none =>
      simp only [List.mem_singleton]
      have hfull := findEmptyCell_eq_none_iff.mp hfe
      constructor
      · rintro rfl
        refine ⟨full_valid_isSolutionGrid hwf hfull hrange hvalid, ?_⟩
        intro r hr c hc _
        rfl
      · rintro ⟨hsolg, hext⟩
        apply grid_ext hsolg.1 hwf
        intro r hr c hc
        exact hext r hr c hc (hfull r hr c hc)
    | some rc =>
      obtain ⟨r, c⟩ := rc
      simp only [List.mem_flatMap]
      obtain ⟨hr, hc, hz⟩ := findEmptyCell_eq_some hfe
      constructor
      · rintro ⟨v, hvmem, hvsol⟩
        by_cases hvp : isValidPlacement g r c v bw bh = true
        · rw [if_pos hvp] at hvsol
          have hvrange := mem_range'_one.mp hvmem
          have hwf' := wellFormed_setCell hwf r c v
          have hvalid' :=
            isInitialBoardValid_setCell hwf hr hc hz hvrange.1 hvp hvalid
          have hcellset : cell (setCell g r c v) r c = v :=
            cell_setCell_self_wf hwf v hr hc
          have hrange' : ∀ r' < bw * bh, ∀ c' < bw * bh,
              cell (setCell g r c v) r' c' ≤ bw * bh := by
            intro r' hr' c' hc'
            by_cases hrc : r' = r ∧ c' = c
            · obtain ⟨rfl, rfl⟩ := hrc
              rw [hcellset]
              exact hvrange.2
            · rw [cell_setCell_ne g r c v r' c' (by tauto)]
              exact hrange r' hr' c' hc'
          have hf' : countEmpty (setCell g r c v) (bw * bh) < f := by
            have := countEmpty_setCell_lt hwf hr hc hz
              (Nat.one_le_iff_ne_zero.mp hvrange.1)
            omega
          obtain ⟨hsolg, hext⟩ := (ih hwf' hvalid' hrange' hf').mp hvsol
          refine ⟨hsolg, ?_⟩
          intro r' hr' c' hc' hnz
          by_cases hrc : r' = r ∧ c' = c
          · obtain ⟨rfl, rfl⟩ := hrc
            exact absurd hz hnz
          · have hne := cell_setCell_ne g r c v r' c' (by tauto)
            rw [← hne]
            exact hext r' hr' c' hc' (hne ▸ hnz)
        · rw [if_neg hvp] at hvsol
          cases hvsol
      · rintro ⟨hsolg, hext⟩
        set v := cell sol r c with hv
        have hvrange : 1 ≤ v ∧ v ≤ bw * bh := by
          have hmem : v ∈ rowList sol (bw * bh) r :=
            List.mem_map.mpr ⟨c, List.mem_range.mpr hc, rfl⟩
          exact mem_range'_one.mp ((hsolg.2.1 r hr).subset hmem)
        have hvp := isValidPlacement_of_completion hwf hr hc hz hsolg hext
        refine ⟨v, mem_range'_one.mpr hvrange, ?_⟩
        rw [if_pos hvp]
        have hwf' := wellFormed_setCell hwf r c v
        have hvalid' :=
          isInitialBoardValid_setCell hwf hr hc hz hvrange.1 hvp hvalid
        have hcellset : cell (setCell g r c v) r c = v :=
          cell_setCell_self_wf hwf v hr hc
        have hrange' : ∀ r' < bw * bh, ∀ c' < bw * bh,
            cell (setCell g r c v) r' c' ≤ bw * bh := by
          intro r' hr' c' hc'
          by_cases hrc : r' = r ∧ c' = c
          · obtain ⟨rfl, rfl⟩ := hrc
            rw [hcellset]
            exact hvrange.2
          · rw [cell_setCell_ne g r c v r' c' (by tauto)]
            exact hrange r' hr' c' hc'
        have hf' : countEmpty (setCell g r c v) (bw * bh) < f := by
          have := countEmpty_setCell_lt hwf hr hc hz
            (Nat.one_le_iff_ne_zero.mp hvrange.1)
          omega
        apply (ih hwf' hvalid' hrange' hf').mpr
        refine ⟨hsolg, ?_⟩
        intro r' hr' c' hc' hnz
        by_cases hrc : r' = r ∧ c' = c
        · obtain ⟨rfl, rfl⟩ := hrc
          rw [hcellset]
        · have hne := cell_setCell_ne g r c v r' c' (by tauto)
          rw [hne]
          exact hext r' hr' c' hc' (hne ▸ hnz)

lemma solutionsList_mem_extends {bw bh : Nat} :
    ∀ {fuel : Nat} {g sol : Grid}, WellFormed g (bw * bh) →
      sol ∈ solutionsList bw bh fuel g →
      ∀ r < bw * bh, ∀ c < bw * bh, cell g r c ≠ 0 → cell sol r c = cell g r c := by
  intro fuel
  induction fuel with
  | zero =>
    intro g sol _ hmem
    cases hmem
  | succ f ih =>
    intro g sol hwf hmem
    rw [solutionsList] at hmem
    cases hfe : findEmptyCell g (bw * bh) with
    | none =>
      rw [hfe] at hmem
      simp only [List.mem_singleton] at hmem
      subst hmem
      intro r hr c hc _
      rfl
    | some rc =>
      obtain ⟨r, c⟩ := rc
      rw [hfe] at hmem
      simp only [List.mem_flatMap] at hmem
      obtain ⟨v, _, hvsol⟩ := hmem
      by_cases hvp : isValidPlacement g r c v bw bh = true
      · rw [if_pos hvp] at hvsol
        obtain ⟨hr, hc, hz⟩ := findEmptyCell_eq_some hfe
        have hext := ih (wellFormed_setCell hwf r c v) hvsol
        intro r' hr' c' hc' hnz
        by_cases hrc : r' = r ∧ c' = c
        · obtain ⟨rfl, rfl⟩ := hrc
          exact absurd hz hnz
        · have hne := cell_setCell_ne g r c v r' c' (by tauto)
          rw [← hne]
          exact hext r' hr' c' hc' (hne ▸ hnz)
      · rw [if_neg hvp] at hvsol
        cases hvsol

lemma solutionsList_nodup {bw bh : Nat} :
    ∀ {fuel : Nat} {g : Grid}, WellFormed g (bw * bh) →
      (solutionsList bw bh fuel g).Nodup := by
  intro fuel
  induction fuel with
  | zero =>
    intro g _
    simp [solutionsList]
  | succ f ih =>
    intro g hwf
    rw [solutionsList]
    cases hfe : findEmptyCell g (bw * bh) with
    | none => simp
    | some rc =>
      obtain ⟨r, c⟩ := rc
      simp only
      rw [List.nodup_flatMap]
      obtain ⟨hr, hc, hz⟩ := findEmptyCell_eq_some hfe
      constructor
      · intro v _
        by_cases hvp : isValidPlacement g r c v bw bh = true
        · rw [if_pos hvp]
          exact ih (wellFormed_setCell hwf r c v)
        · rw [if_neg hvp]
          exact List.nodup_nil
      · apply List.Pairwise.imp_of_mem ?_ (List.nodup_range' 1 (bw * bh))
        intro v₁ v₂ hm1 hm2 hne x hx1 hx2
        have hx1' : x ∈ (if isValidPlacement g r c v₁ bw bh = true then
            solutionsList bw bh f (setCell g r c v₁) else []) := hx1
        have hx2' : x ∈ (if isValidPlacement g r c v₂ bw bh = true then
            solutionsList bw bh f (setCell g r c v₂) else []) := hx2
        by_cases hvp1 : isValidPlacement g r c v₁ bw bh = true
        · by_cases hvp2 : isValidPlacement g r c v₂ bw bh = true
          · rw [if_pos hvp1] at hx1'
            rw [if_pos hvp2] at hx2'
            have hb1 := mem_range'_one.mp hm1
            have hb2 := mem_range'_one.mp hm2
            have hcs1 : cell (setCell g r c v₁) r c = v₁ :=
              cell_setCell_self_wf hwf v₁ hr hc
            have hcs2 : cell (setCell g r c v₂) r c = v₂ :=
              cell_setCell_self_wf hwf v₂ hr hc
            have he1 := solutionsList_mem_extends
              (wellFormed_setCell hwf r c v₁) hx1' r hr c hc (by rw [hcs1]; omega)
            have he2 := solutionsList_mem_extends
              (wellFormed_setCell hwf r c v₂) hx2' r hr c hc (by rw [hcs2]; omega)
            rw [hcs1] at he1
            rw [hcs2] at he2
            exact hne (by rw [← he1, he2])
          · rw [if_neg hvp2] at hx2'
            cases hx2'
        · rw [if_neg hvp1] at hx1'
          cases hx1'

/-! ### Claim theorems: uniqueness counting -/

/-- Claim C2 (amended): for a well-formed grid whose entries lie in
`0..N` and which additionally passes the initial full-board validity scan
(no duplicate non-zero value in any row/column/box),
`has_unique_solution` returns true iff the grid has exactly one
completion satisfying the row/column/box constraints; the capped
count-up-to-2 search with early exit decides this correctly.  (The scan
hypothesis is genuinely needed: see `hasUniqueSolution_cex`.) -/
theorem hasUniqueSolution_iff_uniqueCompletion (g : Grid) (bw bh : Nat)
    (hbw : 1 ≤ bw) (hbh : 1 ≤ bh) (hwf : WellFormed g (bw * bh))
    (hrange : ∀ r < bw * bh, ∀ c < bw * bh, cell g r c ≤ bw * bh)
    (hvalid : isInitialBoardValid g bw bh = true) :
    (hasUniqueSolution g bw bh = true ↔ ∃! sol, IsCompletion g sol bw bh) := by
  unfold hasUniqueSolution
  rw [beq_iff_eq]
  have hle := countGo_le_length bw bh 2 (countEmpty g (bw * bh) + 1) g
  have hge := countGo_ge_min bw bh 2 (countEmpty g (bw * bh) + 1) g
  have hiff : ∀ sol, (sol ∈ solutionsList bw bh (countEmpty g (bw * bh) + 1) g ↔
      IsCompletion g sol bw bh) :=
    fun sol => mem_solutionsList hwf hvalid hrange (Nat.lt_succ_self _)
  constructor
  · intro h1
    have hlen : (solutionsList bw bh (countEmpty g (bw * bh) + 1) g).length = 1 := by
      omega
    obtain ⟨a, ha⟩ := List.length_eq_one.mp hlen
    refine ⟨a, ?_, ?_⟩
    · apply (hiff a).mp
      rw [ha]
      exact List.mem_singleton_self a
    · intro y hy
      have hmem := (hiff y).mpr hy
      rw [ha] at hmem
      exact List.mem_singleton.mp hmem
  · rintro ⟨sol, hsol, huniq⟩
    have hmem := (hiff sol).mpr hsol
    have hsub : solutionsList bw bh (countEmpty g (bw * bh) + 1) g ⊆ [sol] := by
      intro x hx
      have := huniq x ((hiff x).mp hx)
      simp [this]
    have hnd := @solutionsList_nodup bw bh (countEmpty g (bw * bh) + 1) g hwf
    have hlen_le :
        (solutionsList bw bh (countEmpty g (bw * bh) + 1) g).length ≤ 1 := by
      have := (List.subperm_of_subset hnd hsub).length_le
      simpa using this
    have hlen_ge :
        1 ≤ (solutionsList bw bh (countEmpty g (bw * bh) + 1) g).length :=
      List.length_pos.mpr (List.ne_nil_of_mem hmem)
    omega

/-- Counterexample for C2 as frozen: the fully filled 2×2 board of all 1s
has entries in `1..2` and zero valid completions, yet
`has_unique_solution` returns true (a full board is counted as one
solution with no validity check of the given values). -/
theorem hasUniqueSolution_cex :
    hasUniqueSolution [[1, 1], [1, 1]] 2 1 = true ∧
    ¬ (∃! sol, IsCompletion [[1, 1], [1, 1]] sol 2 1) := by
  constructor
  · decide
  · rintro ⟨sol, hsol, -⟩
    obtain ⟨hsolg, hext⟩ := hsol
    have h00 : cell sol 0 0 = 1 := by
      have := hext 0 (by decide) 0 (by decide) (by decide)
      simpa [cell] using this
    have h01 : cell sol 0 1 = 1 := by
      have := hext 0 (by decide) 1 (by decide) (by decide)
      simpa [cell] using this
    have hperm := hsolg.2.1 0 (by decide)
    have hl : rowList sol (2 * 1) 0 = [cell sol 0 0, cell sol 0 1] := by
      simp [rowList, List.range_succ]
    rw [hl, h00, h01] at hperm
    exact (by decide : ¬ ([1, 1] : List Nat).Perm (List.range' 1 (2 * 1))) hperm

/-- Witness for C2: the solved 2×2 board, a valid input with exactly one
completion (itself). -/
theorem hasUniqueSolution_iff_uniqueCompletion_wit :
    hasUniqueSolution [[1, 2], [2, 1]] 2 1 = true ↔
      ∃! sol, IsCompletion [[1, 2], [2, 1]] sol 2 1 :=
  hasUniqueSolution_iff_uniqueCompletion [[1, 2], [2, 1]] 2 1 (by decide)
    (by decide) (by decide) (by decide) (by decide)

/-- Claim C10: on a well-formed board with no empty cell — whether or not
its values respect the row/column/box constraints —
`has_unique_solution` returns true: the counting search immediately
counts the full board as one solution, and no validity scan of the
givens precedes the count. -/
theorem hasUniqueSolution_full_board (g : Grid) (bw bh : Nat)
    (hwf : WellFormed g (bw * bh))
    (hfull : ∀ r < bw * bh, ∀ c < bw * bh, cell g r c ≠ 0) :
    hasUniqueSolution g bw bh = true := by
  unfold hasUniqueSolution
  have hfe : findEmptyCell g (bw * bh) = none := findEmptyCell_eq_none_iff.mpr hfull
  rw [countGo, hfe]
  rfl

/-- Witness for C10: a full 2×2 board violating every row and column
constraint is still reported as uniquely solvable. -/
theorem hasUniqueSolution_full_board_wit :
    hasUniqueSolution [[2, 2], [2, 2]] 2 1 = true :=
  hasUniqueSolution_full_board [[2, 2], [2, 2]] 2 1 (by decide) (by decide)

/-! ### The cell-removal step of the generator -/

/-- `[(r, c) for r in range(board_size) for c in range(board_size)]`. -/
def allPositions (n : Nat) : List (Nat × Nat) :=
  (List.range n).flatMap (fun r => (List.range n).map (fun c => (r, c)))

/-- Bounds computed by `_remove_cells` from the difficulty table:
`(int(total*min_rate), int(total*max_rate))`. -/
def removalBounds (d : String) (total : Nat) : Option (Nat × Nat) :=
  match difficultyRemovalRates d with
  | none => none
  | some ((a, b), (c, e)) => some (total * a / b, total * c / e)

lemma mem_allPositions {n : Nat} {p : Nat × Nat} :
    p ∈ allPositions n ↔ p.1 < n ∧ p.2 < n := by
  unfold allPositions
  simp only [List.mem_flatMap, List.mem_map, List.mem_range]
  constructor
  · rintro ⟨r, hr, c, hc, rfl⟩
    exact ⟨hr, hc⟩
  · rintro ⟨h1, h2⟩
    exact ⟨p.1, h1, p.2, h2, rfl⟩

lemma length_allPositions (n : Nat) : (allPositions n).length = n * n := by
  unfold allPositions
  rw [List.length_flatMap]
  have hmap : (List.range n).map
      (List.length ∘ fun r => (List.range n).map (fun c => (r, c)))
      = (List.range n).map (fun _ => n) := by
    apply List.map_congr_left
    intro r _
    simp
  rw [hmap]
  have hconst : ∀ (l : List Nat), (l.map (fun _ => n)).sum = l.length * n := by
    intro l
    induction l with
    | nil => simp
    | cons a t iht =>
      simp only [List.map_cons, List.sum_cons, iht, List.length_cons]
      ring
  rw [hconst, List.length_range]

lemma nodup_allPositions (n : Nat) : (allPositions n).Nodup := by
  unfold allPositions
  rw [List.nodup_flatMap]
  constructor
  · intro r _
    apply List.Nodup.map ?_ (List.nodup_range n)
    intro c₁ c₂ h
    injection h with h1 h2
  · apply List.Pairwise.imp_of_mem ?_ (List.nodup_range n)
    intro r₁ r₂ _ _ hne x hx1 hx2
    obtain ⟨c₁, _, rfl⟩ := List.mem_map.mp hx1
    obtain ⟨c₂, _, he⟩ := List.mem_map.mp hx2
    injection he with he1 he2
    exact hne he1.symm

lemma filter_length_flip_add {l : List Nat} {p p' : Nat → Bool} {c : Nat}
    (hnd : l.Nodup) (hc : c ∈ l) (hp : p c = false) (hp' : p' c = true)
    (hoth : ∀ x ∈ l, x ≠ c → p' x = p x) :
    (l.filter p').length = (l.filter p).length + 1 := by
  induction l with
  | nil => cases hc
  | cons a t ih =>
    have hndt : t.Nodup := hnd.of_cons
    by_cases hac : a = c
    · subst hac
      have hnotmem : a ∉ t := (List.nodup_cons.mp hnd).1
      have heq : t.filter p' = t.filter p := by
        apply List.filter_congr
        intro x hx
        exact hoth x (List.mem_cons_of_mem _ hx) (fun he => hnotmem (he ▸ hx))
      rw [List.filter_cons, List.filter_cons, if_pos hp', if_neg (by simp [hp]),
        heq]
      simp
    · have hct : c ∈ t := by
        rcases List.mem_cons.mp hc with h | h
        · exact absurd h.symm hac
        · exact h
      have heq := ih hndt hct (fun x hx hne => hoth x (List.mem_cons_of_mem _ hx) hne)
      have hpa : p' a = p a := hoth a (List.mem_cons_self a t) (fun h => hac h)
      by_cases hcase : p a = true
      · rw [List.filter_cons, List.filter_cons, if_pos hcase,
          if_pos (hpa.trans hcase)]
        simp only [List.length_cons, heq]
      · rw [List.filter_cons, List.filter_cons, if_neg hcase,
          if_neg (fun hh => hcase (hpa ▸ hh))]
        exact heq

lemma map_sum_add_of_pointwise {f f' : Nat → Nat} :
    ∀ {l : List Nat} {r : Nat}, l.Nodup → r ∈ l → f' r = f r + 1 →
      (∀ x ∈ l, x ≠ r → f' x = f x) →
      (l.map f').sum = (l.map f).sum + 1 := by
  intro l
  induction l with
  | nil =>
    intro r _ hr
    cases hr
  | cons a t ih =>
    intro r hnd hr hfr hoth
    rcases List.mem_cons.mp hr with h | h
    · subst h
      have hnotmem : r ∉ t := (List.nodup_cons.mp hnd).1
      have heq : t.map f' = t.map f := by
        apply List.map_congr_left
        intro x hx
        exact hoth x (List.mem_cons_of_mem _ hx) (fun he => hnotmem (he ▸ hx))
      simp only [List.map_cons, List.sum_cons, heq, hfr]
      omega
    · have h1 := ih hnd.of_cons h hfr
        (fun x hx hne => hoth x (List.mem_cons_of_mem _ hx) hne)
      have h2 : f' a = f a :=
        hoth a (List.mem_cons_self a t) (fun he => (List.nodup_cons.mp hnd).1 (he ▸ h))
      simp only [List.map_cons, List.sum_cons, h1, h2]
      omega

lemma countEmpty_zeroCell {g : Grid} {n r c : Nat} (hwf : WellFormed g n)
    (hr : r < n) (hc : c < n) (hnz : cell g r c ≠ 0) :
    countEmpty (setCell g r c 0) n = countEmpty g n + 1 := by
  unfold countEmpty
  apply map_sum_add_of_pointwise (List.nodup_range n) (List.mem_range.mpr hr)
  · apply filter_length_flip_add (List.nodup_range n) (List.mem_range.mpr hc)
    · simp [hnz]
    · simp [cell_setCell_self_wf hwf 0 hr hc]
    · intro c' _ hne
      simp [cell_setCell_ne g r c 0 r c' (Or.inr hne)]
  · intro r' _ hne
    have : ∀ c', cell (setCell g r c 0) r' c' = cell g r' c' :=
      fun c' => cell_setCell_ne g r c 0 r' c' (Or.inl hne)
    simp [this]

lemma countEmpty_eq_zero_of_full {g : Grid} {n : Nat}
    (hfull : ∀ r < n, ∀ c < n, cell g r c ≠ 0) : countEmpty g n = 0 := by
  unfold countEmpty
  apply List.sum_eq_zero
  intro x hx
  obtain ⟨r, hrm, rfl⟩ := List.mem_map.mp hx
  have hr := List.mem_range.mp hrm
  rw [List.length_eq_zero]
  apply List.filter_eq_nil_iff.mpr
  intro c hcm
  simp [hfull r hr c (List.mem_range.mp hcm)]

lemma countEmpty_removeLoop {n : Nat} :
    ∀ (ps : List (Nat × Nat)) (k removed : Nat) (puzzle : Grid),
      WellFormed puzzle n → ps.Nodup →
      (∀ p ∈ ps, p.1 < n ∧ p.2 < n ∧ cell puzzle p.1 p.2 ≠ 0) →
      removed ≤ k →
      countEmpty (removeLoop k ps removed puzzle) n =
        countEmpty puzzle n + min (k - removed) ps.length := by
  intro ps
  induction ps with
  | nil =>
    intro k removed puzzle _ _ _ _
    simp [removeLoop]
  | cons p rest ih =>
    intro k removed puzzle hwf hnd hmem hrk
    rw [removeLoop]
    by_cases hk : k ≤ removed
    · rw [if_pos hk]
      have : k - removed = 0 := by omega
      simp [this]
    · rw [if_neg hk]
      obtain ⟨hp1, hp2, hpnz⟩ := hmem p (List.mem_cons_self p rest)
      have hwf' := wellFormed_setCell hwf p.1 p.2 0
      have hmem' : ∀ q ∈ rest, q.1 < n ∧ q.2 < n ∧
          cell (setCell puzzle p.1 p.2 0) q.1 q.2 ≠ 0 := by
        intro q hq
        obtain ⟨hq1, hq2, hqnz⟩ := hmem q (List.mem_cons_of_mem _ hq)
        have hqp : q ≠ p := fun he => (List.nodup_cons.mp hnd).1 (he ▸ hq)
        have hne : q.1 ≠ p.1 ∨ q.2 ≠ p.2 := by
          by_contra hcon
          push_neg at hcon
          exact hqp (Prod.ext hcon.1 hcon.2)
        rw [cell_setCell_ne puzzle p.1 p.2 0 q.1 q.2 hne]
        exact ⟨hq1, hq2, hqnz⟩
      rw [ih k (removed + 1) _ hwf' hnd.of_cons hmem' (by omega)]
      rw [countEmpty_zeroCell hwf hp1 hp2 hpnz]
      simp only [List.length_cons]
      omega

lemma removeLoop_nil (k : Nat) :
    ∀ (ps : List (Nat × Nat)) (removed : Nat), removeLoop k ps removed [] = [] := by
  intro ps
  induction ps with
  | nil =>
    intro removed
    rfl
  | cons p rest ih =>
    intro removed
    rw [removeLoop]
    by_cases hk : k ≤ removed
    · rw [if_pos hk]
    · rw [if_neg hk]
      exact ih (removed + 1)

lemma removeCells_nil {bw bh : Nat} {d : String} {pos : List (Nat × Nat)}
    {rnd : Nat → Nat → Nat} : removeCells [] bw bh d pos rnd = [] := by
  unfold removeCells
  cases hr : difficultyRemovalRates d with
  | none => rfl
  | some p =>
    obtain ⟨⟨a, b⟩, c, e⟩ := p
    exact removeLoop_nil _ pos 0

lemma generateCompleteBoard_zero {bw bh : Nat} (cand : Grid → List Nat)
    (hn : bw * bh = 0) : generateCompleteBoard bw bh cand = [] := by
  have hempty : emptyGrid (bw * bh) = [] := by rw [hn]; rfl
  have hfe : findEmptyCell ([] : Grid) (bw * bh) = none := by rw [hn]; rfl
  have hsearch : searchGo bw bh cand
      (countEmpty (emptyGrid (bw * bh)) (bw * bh) + 1) (emptyGrid (bw * bh)) =
        some [] := by
    rw [hempty, searchGo, hfe]
  simp only [generateCompleteBoard, hsearch]

/-- The complete board built by the generator, as used by `_remove_cells`:
well-formed, zero-free, and entry-bounded (shared by C1 and C5). -/
lemma generateCompleteBoard_spec (bw bh : Nat) (hbw : 1 ≤ bw) (hbh : 1 ≤ bh)
    (cand : Grid → List Nat)
    (hcand : ∀ g, (cand g).Perm (List.range' 1 (bw * bh))) :
    (searchGo bw bh cand (countEmpty (emptyGrid (bw * bh)) (bw * bh) + 1)
        (emptyGrid (bw * bh))).isSome = true ∧
    IsSolutionGrid (generateCompleteBoard bw bh cand) bw bh := by
  have hsub : ∀ g', List.range' 1 (bw * bh) ⊆ cand g' :=
    fun g' => (hcand g').symm.subset
  have hwfE := wellFormed_emptyGrid (bw * bh)
  have hvalidE := isInitialBoardValid_emptyGrid bw bh
  have hcomp := @emptyGrid_hasCompletion bw bh (by omega) (by omega)
  have hsome := searchGo_complete hsub hwfE (Nat.lt_succ_self _) hcomp
  refine ⟨hsome, ?_⟩
  obtain ⟨b, hb⟩ := Option.isSome_iff_exists.mp hsome
  have hbounds : ∀ g' v, v ∈ cand g' → 1 ≤ v ∧ v ≤ bw * bh := by
    intro g' v hv
    exact mem_range'_one.mp ((hcand g').subset hv)
  obtain ⟨hwfb, hvb, hextb, hfullb, hrangeb⟩ :=
    searchGo_sound hbounds hwfE hvalidE hb
  have hres : generateCompleteBoard bw bh cand = b := by
    simp only [generateCompleteBoard, hb]
  rw [hres]
  apply full_valid_isSolutionGrid hwfb hfullb ?_ hvb
  intro r hr c hc
  exact (hrangeb r hr c hc (cell_emptyGrid _ r c)).2

/-- Cells of a solution grid are non-zero. -/
lemma solution_cells_nonzero {g : Grid} {bw bh : Nat}
    (hsol : IsSolutionGrid g bw bh) :
    ∀ r < bw * bh, ∀ c < bw * bh, cell g r c ≠ 0 := by
  intro r hr c hc hz
  have hmem : cell g r c ∈ rowList g (bw * bh) r :=
    List.mem_map.mpr ⟨c, List.mem_range.mpr hc, rfl⟩
  have := mem_range'_one.mp ((hsol.2.1 r hr).subset hmem)
  omega

/-! ### Claim theorems: the generator -/

/-- Claim C1: for any box shape with `bw, bh ≥ 1` and any outcome of the
per-call candidate shuffles (any `cand` producing permutations of
`1..N`), the board-filling search on the empty board never fails at the
top level, and the complete board built by
`_generate_complete_board` has every row, column and box a permutation of
`1..N`. -/
theorem fillComplete_total_and_valid (bw bh : Nat) (hbw : 1 ≤ bw) (hbh : 1 ≤ bh)
    (cand : Grid → List Nat)
    (hcand : ∀ g, (cand g).Perm (List.range' 1 (bw * bh))) :
    (searchGo bw bh cand (countEmpty (emptyGrid (bw * bh)) (bw * bh) + 1)
        (emptyGrid (bw * bh))).isSome = true ∧
    IsSolutionGrid (generateCompleteBoard bw bh cand) bw bh :=
  generateCompleteBoard_spec bw bh hbw hbh cand hcand

/-- Witness for C1. -/
theorem fillComplete_total_and_valid_wit :
    (searchGo 2 1 (fun _ => [2, 1])
        (countEmpty (emptyGrid (2 * 1)) (2 * 1) + 1) (emptyGrid (2 * 1))).isSome
      = true ∧
    IsSolutionGrid (generateCompleteBoard 2 1 (fun _ => [2, 1])) 2 1 :=
  fillComplete_total_and_valid 2 1 (by decide) (by decide) (fun _ => [2, 1])
    (fun _ => by
      show ([2, 1] : List Nat).Perm (List.range' 1 (2 * 1))
      decide)

/-- Claim C5: for any box shape with `bw, bh ≥ 1`, any recognised
difficulty and any outcome of the random choices (candidate shuffles,
position shuffle, and `randint`, the latter assumed to stay within its
inclusive bounds), `generate` succeeds and the number of zero cells of
the returned grid lies in the closed interval
`[⌊N²·min_fraction⌋, ⌊N²·max_fraction⌋]` computed by `removalBounds`
(EASY `(30/100, 40/100)`, MEDIUM `(45/100, 55/100)`, HARD
`(60/100, 65/100)`; Python's `int(total*rate)` on these floats agrees
with the exact floor). -/
theorem generate_removal_bounds (bw bh : Nat) (d : String)
    (cand : Grid → List Nat) (pos : List (Nat × Nat)) (rnd : Nat → Nat → Nat)
    (hbw : 1 ≤ bw) (hbh : 1 ≤ bh)
    (hcand : ∀ g, (cand g).Perm (List.range' 1 (bw * bh)))
    (hpos : pos.Perm (allPositions (bw * bh)))
    (hrnd : ∀ lo hi, lo ≤ hi → lo ≤ rnd lo hi ∧ rnd lo hi ≤ hi)
    (lo hi : Nat)
    (hd : removalBounds (strUpper d) ((bw * bh) * (bw * bh)) = some (lo, hi)) :
    ∃ puzzle, generate bw bh d cand pos rnd = Except.ok puzzle ∧
      lo ≤ countEmpty puzzle (bw * bh) ∧ countEmpty puzzle (bw * bh) ≤ hi := by
  obtain ⟨hsome, hsol⟩ := generateCompleteBoard_spec bw bh hbw hbh cand hcand
  have hwfc : WellFormed (generateCompleteBoard bw bh cand) (bw * bh) := hsol.1
  have hfullc := solution_cells_nonzero hsol
  unfold removalBounds at hd
  cases hrates : difficultyRemovalRates (strUpper d) with
  | none =>
    rw [hrates] at hd
    cases hd
  | some p =>
    obtain ⟨⟨a, b⟩, cc, e⟩ := p
    rw [hrates] at hd
    simp only [Option.some.injEq, Prod.mk.injEq] at hd
    obtain ⟨hlo, hhi⟩ := hd
    have htup : (a = 30 ∧ b = 100 ∧ cc = 40 ∧ e = 100) ∨
        (a = 45 ∧ b = 100 ∧ cc = 55 ∧ e = 100) ∨
        (a = 60 ∧ b = 100 ∧ cc = 65 ∧ e = 100) := by
      unfold difficultyRemovalRates at hrates
      by_cases h1 : strUpper d = "EASY"
      · rw [if_pos h1] at hrates
        simp only [Option.some.injEq, Prod.mk.injEq] at hrates
        exact Or.inl ⟨hrates.1.1.symm, hrates.1.2.symm, hrates.2.1.symm, hrates.2.2.symm⟩
      · rw [if_neg h1] at hrates
        by_cases h2 : strUpper d = "MEDIUM"
        · rw [if_pos h2] at hrates
          simp only [Option.some.injEq, Prod.mk.injEq] at hrates
          exact Or.inr (Or.inl ⟨hrates.1.1.symm, hrates.1.2.symm, hrates.2.1.symm, hrates.2.2.symm⟩)
        · rw [if_neg h2] at hrates
          by_cases h3 : strUpper d = "HARD"
          · rw [if_pos h3] at hrates
            simp only [Option.some.injEq, Prod.mk.injEq] at hrates
            exact Or.inr (Or.inr ⟨hrates.1.1.symm, hrates.1.2.symm, hrates.2.1.symm, hrates.2.2.symm⟩)
          · rw [if_neg h3] at hrates
            cases hrates
    have hlohi : lo ≤ hi := by
      rw [← hlo, ← hhi]
      rcases htup with ⟨ha, hb, hc, he⟩ | ⟨ha, hb, hc, he⟩ | ⟨ha, hb, hc, he⟩ <;>
        (subst ha; subst hb; subst hc; subst he;
          exact Nat.div_le_div_right (Nat.mul_le_mul_left _ (by norm_num)))
    have hhitot : hi ≤ (bw * bh) * (bw * bh) := by
      rw [← hhi]
      rcases htup with ⟨ha, hb, hc, he⟩ | ⟨ha, hb, hc, he⟩ | ⟨ha, hb, hc, he⟩ <;>
        (subst hc; subst he;
          calc (bw * bh) * (bw * bh) * _ / 100
              ≤ (bw * bh) * (bw * bh) * 100 / 100 :=
              Nat.div_le_div_right (Nat.mul_le_mul_left _ (by norm_num))
          _ = (bw * bh) * (bw * bh) := Nat.mul_div_cancel _ (by norm_num))
    obtain ⟨hk1, hk2⟩ := hrnd lo hi hlohi
    have hcopy : (generateCompleteBoard bw bh cand).map (fun row => row)
        = generateCompleteBoard bw bh cand := by
      simp
    have hmem : ∀ q ∈ pos, q.1 < bw * bh ∧ q.2 < bw * bh ∧
        cell (generateCompleteBoard bw bh cand) q.1 q.2 ≠ 0 := by
      intro q hq
      have hm := mem_allPositions.mp (hpos.subset hq)
      exact ⟨hm.1, hm.2, hfullc q.1 hm.1 q.2 hm.2⟩
    have hposnd : pos.Nodup := hpos.symm.nodup (nodup_allPositions (bw * bh))
    have hlen : pos.length = (bw * bh) * (bw * bh) := by
      rw [hpos.length_eq, length_allPositions]
    have hcount :
        countEmpty (removeCells (generateCompleteBoard bw bh cand) bw bh
          (strUpper d) pos rnd) (bw * bh) = rnd lo hi := by
      simp only [removeCells, hrates, hcopy, hlo, hhi]
      rw [countEmpty_removeLoop pos (rnd lo hi) 0 _ hwfc hposnd hmem
        (Nat.zero_le _)]
      rw [countEmpty_eq_zero_of_full hfullc]
      omega
    refine ⟨removeCells (generateCompleteBoard bw bh cand) bw bh (strUpper d) pos
      rnd, ?_, ?_, ?_⟩
    · unfold generate
      rw [if_neg (by rw [hrates]; simp)]
    · rw [hcount]
      exact hk1
    · rw [hcount]
      exact hk2

/-- Witness for C5: a 2×2 EASY board with concrete oracles removes
exactly one cell. -/
theorem generate_removal_bounds_wit :
    ∃ puzzle, generate 2 1 ("EASY") (fun _ => [1, 2])
        [(0, 0), (0, 1), (1, 0), (1, 1)] (fun lo _ => lo) = Except.ok puzzle ∧
      1 ≤ countEmpty puzzle (2 * 1) ∧ countEmpty puzzle (2 * 1) ≤ 1 :=
  generate_removal_bounds 2 1 ("EASY") (fun _ => [1, 2])
    [(0, 0), (0, 1), (1, 0), (1, 1)] (fun lo _ => lo) (by decide) (by decide)
    (fun _ => by
      show ([1, 2] : List Nat).Perm (List.range' 1 (2 * 1))
      decide)
    (by decide) (fun lo hi h => ⟨Nat.le_refl lo, h⟩) 1 1 (by decide)

/-- Claim C6 (amended): `generate` performs no dimension validation — for
`box_width = 0` or `box_height = 0` it does not fail fast with an
invalid-dimensions error; it returns the degenerate grid with no rows. -/
theorem generate_accepts_zero_dims (bw bh : Nat) (d : String)
    (cand : Grid → List Nat) (pos : List (Nat × Nat)) (rnd : Nat → Nat → Nat)
    (hz : bw = 0 ∨ bh = 0)
    (hd : (difficultyRemovalRates (strUpper d)).isSome = true) :
    generate bw bh d cand pos rnd = Except.ok [] := by
  have hn : bw * bh = 0 := by
    rcases hz with rfl | rfl
    · exact Nat.zero_mul bh
    · exact Nat.mul_zero bw
  unfold generate
  cases hrates : difficultyRemovalRates (strUpper d) with
  | none =>
    rw [hrates] at hd
    simp at hd
  | some p =>
    rw [if_neg (by simp)]
    rw [generateCompleteBoard_zero cand hn]
    show Except.ok (removeCells [] bw bh (strUpper d) pos rnd)
      = Except.ok ([] : Grid)
    rw [removeCells_nil]

/-- Counterexample for C6 as frozen: `generate` with `box_width = 0` does
not fail with an invalid-dimensions error; it returns a grid. -/
theorem generate_zero_dims_cex :
    generate 0 3 ("EASY") (fun _ => []) [] (fun lo _ => lo)
      = Except.ok [] := by
  rfl

/-- Witness for C6. -/
theorem generate_accepts_zero_dims_wit :
    generate 3 0 ("MEDIUM") (fun _ => []) [] (fun lo _ => lo)
      = Except.ok [] :=
  generate_accepts_zero_dims 3 0 ("MEDIUM") (fun _ => []) [] (fun lo _ => lo)
    (Or.inr rfl) (by decide)

/-- Claim C7 (amended): `generate` raises the invalid-difficulty error
for precisely those difficulty strings whose upper-casing is outside
{EASY, MEDIUM, HARD}; in particular non-canonical spellings such as
"easy" are accepted (upper-cased first), not rejected. -/
theorem generate_error_iff_unknown_difficulty (bw bh : Nat) (d : String)
    (cand : Grid → List Nat) (pos : List (Nat × Nat)) (rnd : Nat → Nat → Nat) :
    (∃ e, generate bw bh d cand pos rnd = Except.error e) ↔
      ¬ (strUpper d = "EASY" ∨ strUpper d = "MEDIUM" ∨ strUpper d = "HARD") := by
  unfold generate difficultyRemovalRates
  by_cases h1 : strUpper d = "EASY"
  · simp [h1]
  · by_cases h2 : strUpper d = "MEDIUM"
    · simp [h1, h2]
    · by_cases h3 : strUpper d = "HARD"
      · simp [h1, h2, h3]
      · simp [h1, h2, h3]

/-- Counterexample for C7 as frozen: the non-canonical spelling "easy" is
accepted by `generate` rather than rejected. -/
theorem generate_lowercase_cex :
    generate 1 1 ("easy") (fun _ => [1]) [(0, 0)] (fun lo _ => lo)
      = Except.ok [[1]] := by
  rfl

/-! ### Heap model: the solver mutates only its defensive copy (C9)

The frame claim is about object identity, which the pure state-passing
model cannot express, so here the boards live in an explicit heap of
objects addressed by `Nat`.  Both entry points read the caller's board at
one address, write the defensive copy `[row[:] for row in board]` to a
second address, and every in-place cell write of the search goes to that
second address, exactly as in the source. -/

def Heap := Nat → Grid

/-- Overwrite the object stored at address `a`. -/
def writeH (h : Heap) (a : Nat) (g : Grid) : Heap :=
  fun b => if b = a then g else h b

lemma writeH_ne {h : Heap} {a b : Nat} {g : Grid} (hne : b ≠ a) :
    writeH h a g b = h b := if_neg hne

/-- The candidate loop of `_solve_recursive` at the heap level: place at
`a`, recurse (`f`), on success return leaving the board solved, on
failure reset the cell at `a` and try the next candidate. -/
def searchLoopH (bw bh : Nat) (f : Heap → Bool × Heap) (a r c : Nat) :
    List Nat → Heap → Bool × Heap
  | [], h => (false, h)
  | v :: vs, h =>
    if isValidPlacement (h a) r c v bw bh then
      match f (writeH h a (setCell (h a) r c v)) with
      | (true, h₂) => (true, h₂)
      | (false, h₂) =>
        searchLoopH bw bh f a r c vs (writeH h₂ a (setCell (h₂ a) r c 0))
    else searchLoopH bw bh f a r c vs h

/-- `_solve_recursive` at the heap level, mutating the board at `a`. -/
def searchGoH (bw bh : Nat) (cand : Grid → List Nat) (a : Nat) :
    Nat → Heap → Bool × Heap
  | 0, h => (false, h)
  | fuel + 1, h =>
    match findEmptyCell (h a) (bw * bh) with
    | none => (true, h)
    | some (r, c) =>
      searchLoopH bw bh (fun h' => searchGoH bw bh cand a fuel h') a r c
        (cand (h a)) h

/-- `solve` at the heap level: the caller's board sits at `caller`; the
copy is written to `work` and the search runs there. -/
def solveH (bw bh : Nat) (h : Heap) (caller work : Nat) : Heap × Bool :=
  if isInitialBoardValid (h caller) bw bh then
    let h₁ := writeH h work ((h caller).map (fun row => row))
    match searchGoH bw bh (fun _ => List.range' 1 (bw * bh)) work
        (countEmpty (h₁ work) (bw * bh) + 1) h₁ with
    | (ok, h₂) => (h₂, ok)
  else (h, false)

/-- The candidate loop of `_count_solutions` at the heap level (place,
recurse, reset, then test the cap). -/
def countLoopH (bw bh m : Nat) (f : Heap → Nat × Heap) (a r c : Nat) :
    List Nat → Nat → Heap → Nat × Heap
  | [], acc, h => (acc, h)
  | v :: vs, acc, h =>
    if isValidPlacement (h a) r c v bw bh then
      match f (writeH h a (setCell (h a) r c v)) with
      | (k, h₂) =>
        let acc' := acc + k
        let h₃ := writeH h₂ a (setCell (h₂ a) r c 0)
        if m ≤ acc' then (acc', h₃) else countLoopH bw bh m f a r c vs acc' h₃
    else countLoopH bw bh m f a r c vs acc h

/-- `_count_solutions` at the heap level, mutating the board at `a`. -/
def countGoH (bw bh m a : Nat) : Nat → Heap → Nat × Heap
  | 0, h => (0, h)
  | fuel + 1, h =>
    match findEmptyCell (h a) (bw * bh) with
    | none => (1, h)
    | some (r, c) =>
      countLoopH bw bh m (fun h' => countGoH bw bh m a fuel h') a r c
        (List.range' 1 (bw * bh)) 0 h

/-- `has_unique_solution` at the heap level. -/
def hasUniqueSolutionH (bw bh : Nat) (h : Heap) (caller work : Nat) :
    Heap × Bool :=
  let h₁ := writeH h work ((h caller).map (fun row => row))
  match countGoH bw bh 2 work (countEmpty (h₁ work) (bw * bh) + 1) h₁ with
  | (k, h₂) => (h₂, k == 1)

lemma searchLoopH_frame {bw bh : Nat} {f : Heap → Bool × Heap} {a r c : Nat}
    (hf : ∀ hp b, b ≠ a → (f hp).2 b = hp b) :
    ∀ (vs : List Nat) (hp : Heap) (b : Nat), b ≠ a →
      (searchLoopH bw bh f a r c vs hp).2 b = hp b := by
  intro vs
  induction vs with
  | nil =>
    intro hp b hb
    rfl
  | cons v rest ih =>
    intro hp b hb
    rw [searchLoopH]
    by_cases hv : isValidPlacement (hp a) r c v bw bh = true
    · rw [if_pos hv]
      rcases hfr : f (writeH hp a (setCell (hp a) r c v)) with ⟨ok, h₂⟩
      have hstep : h₂ b = hp b := by
        have h3 := hf (writeH hp a (setCell (hp a) r c v)) b hb
        rw [hfr] at h3
        have h4 : h₂ b = writeH hp a (setCell (hp a) r c v) b := h3
        rw [h4, writeH_ne hb]
      cases ok with
      | true => exact hstep
      | false =>
        show (searchLoopH bw bh f a r c rest
          (writeH h₂ a (setCell (h₂ a) r c 0))).2 b = hp b
        rw [ih (writeH h₂ a (setCell (h₂ a) r c 0)) b hb, writeH_ne hb]
        exact hstep
    · rw [if_neg hv]
      exact ih hp b hb

lemma searchGoH_frame {bw bh : Nat} {cand : Grid → List Nat} {a : Nat} :
    ∀ (fuel : Nat) (hp : Heap) (b : Nat), b ≠ a →
      (searchGoH bw bh cand a fuel hp).2 b = hp b := by
  intro fuel
  induction fuel with
  | zero =>
    intro hp b hb
    rfl
  | succ f ih =>
    intro hp b hb
    rw [searchGoH]
    cases hfe : findEmptyCell (hp a) (bw * bh) with
    | none => rfl
    | some rc =>
      obtain ⟨r, c⟩ := rc
      exact searchLoopH_frame (fun hp' b' hb' => ih hp' b' hb') _ hp b hb

lemma countLoopH_frame {bw bh m : Nat} {f : Heap → Nat × Heap} {a r c : Nat}
    (hf : ∀ hp b, b ≠ a → (f hp).2 b = hp b) :
    ∀ (vs : List Nat) (acc : Nat) (hp : Heap) (b : Nat), b ≠ a →
      (countLoopH bw bh m f a r c vs acc hp).2 b = hp b := by
  intro vs
  induction vs with
  | nil =>
    intro acc hp b hb
    rfl
  | cons v rest ih =>
    intro acc hp b hb
    rw [countLoopH]
    by_cases hv : isValidPlacement (hp a) r c v bw bh = true
    · rw [if_pos hv]
      rcases hfr : f (writeH hp a (setCell (hp a) r c v)) with ⟨k, h₂⟩
      have hstep : h₂ b = hp b := by
        have h3 := hf (writeH hp a (setCell (hp a) r c v)) b hb
        rw [hfr] at h3
        have h4 : h₂ b = writeH hp a (setCell (hp a) r c v) b := h3
        rw [h4, writeH_ne hb]
      show (if m ≤ acc + k then (acc + k, writeH h₂ a (setCell (h₂ a) r c 0))
        else countLoopH bw bh m f a r c rest (acc + k)
          (writeH h₂ a (setCell (h₂ a) r c 0))).2 b = hp b
      by_cases hm : m ≤ acc + k
      · rw [if_pos hm]
        show writeH h₂ a (setCell (h₂ a) r c 0) b = hp b
        rw [writeH_ne hb]
        exact hstep
      · rw [if_neg hm]
        rw [ih (acc + k) (writeH h₂ a (setCell (h₂ a) r c 0)) b hb,
          writeH_ne hb]
        exact hstep
    · rw [if_neg hv]
      exact ih acc hp b hb

lemma countGoH_frame {bw bh m a : Nat} :
    ∀ (fuel : Nat) (hp : Heap) (b : Nat), b ≠ a →
      (countGoH bw bh m a fuel hp).2 b = hp b := by
  intro fuel
  induction fuel with
  | zero =>
    intro hp b hb
    rfl
  | succ f ih =>
    intro hp b hb
    rw [countGoH]
    cases hfe : findEmptyCell (hp a) (bw * bh) with
    | none => rfl
    | some rc =>
      obtain ⟨r, c⟩ := rc
      exact countLoopH_frame (fun hp' b' hb' => ih hp' b' hb') _ 0 hp b hb

/-- Claim C9: `solve` and `has_unique_solution` leave the caller's board
unchanged — each works on a defensive copy stored at a different heap
address, and all in-place writes of the search go to that copy. -/
theorem solver_preserves_caller_grid (bw bh : Nat) (h : Heap)
    (caller work : Nat) (hne : caller ≠ work) :
    (solveH bw bh h caller work).1 caller = h caller ∧
    (hasUniqueSolutionH bw bh h caller work).1 caller = h caller := by
  constructor
  · unfold solveH
    by_cases hv : isInitialBoardValid (h caller) bw bh = true
    · rw [if_pos hv]
      rcases hs : searchGoH bw bh (fun _ => List.range' 1 (bw * bh)) work
          (countEmpty ((writeH h work ((h caller).map (fun row => row))) work)
            (bw * bh) + 1)
          (writeH h work ((h caller).map (fun row => row))) with ⟨ok, h₂⟩
      have h1 := @searchGoH_frame bw bh (fun _ => List.range' 1 (bw * bh)) work
        (countEmpty ((writeH h work ((h caller).map (fun row => row))) work)
          (bw * bh) + 1)
        (writeH h work ((h caller).map (fun row => row))) caller hne
      rw [hs] at h1
      have h2 : h₂ caller
          = writeH h work ((h caller).map (fun row => row)) caller := h1
      show (match searchGoH bw bh (fun _ => List.range' 1 (bw * bh)) work
          (countEmpty ((writeH h work ((h caller).map (fun row => row))) work)
            (bw * bh) + 1)
          (writeH h work ((h caller).map (fun row => row))) with
        | (ok, h₂) => (h₂, ok)).1 caller = h caller
      rw [hs]
      show h₂ caller = h caller
      rw [h2, writeH_ne hne]
    · rw [if_neg hv]
  · unfold hasUniqueSolutionH
    rcases hs : countGoH bw bh 2 work
        (countEmpty ((writeH h work ((h caller).map (fun row => row))) work)
          (bw * bh) + 1)
        (writeH h work ((h caller).map (fun row => row))) with ⟨k, h₂⟩
    have h1 := @countGoH_frame bw bh 2 work
      (countEmpty ((writeH h work ((h caller).map (fun row => row))) work)
        (bw * bh) + 1)
      (writeH h work ((h caller).map (fun row => row))) caller hne
    rw [hs] at h1
    have h2 : h₂ caller
        = writeH h work ((h caller).map (fun row => row)) caller := h1
    show (match countGoH bw bh 2 work
        (countEmpty ((writeH h work ((h caller).map (fun row => row))) work)
          (bw * bh) + 1)
        (writeH h work ((h caller).map (fun row => row))) with
      | (k, h₂) => (h₂, k == 1)).1 caller = h caller
    rw [hs]
    show h₂ caller = h caller
    rw [h2, writeH_ne hne]

/-- Witness for C9. -/
theorem solver_preserves_caller_grid_wit :
    (solveH 2 1 (fun _ => [[1, 0], [0, 0]]) 0 1).1 0
        = (fun _ : Nat => ([[1, 0], [0, 0]] : Grid)) 0 ∧
    (hasUniqueSolutionH 2 1 (fun _ => [[1, 0], [0, 0]]) 0 1).1 0
        = (fun _ : Nat => ([[1, 0], [0, 0]] : Grid)) 0 :=
  solver_preserves_caller_grid 2 1 (fun _ => [[1, 0], [0, 0]]) 0 1
    (by decide)

end Sudoku
